import Mathlib

/-!
Verification of the animation timeline scheduler in `src/animation.ts`
(montoria/newcarx).

The embedding is shallow: wall time and virtual time are rationals, the
in-place object graph of `AnimationTimelineNodeImpl` becomes an arena
(`List NodeData` addressed by index, playing the role of object identity),
and every mutation of the TypeScript code becomes an explicit state update
performed in the same order as the source.  Effect (`animator`) and timing
callbacks are opaque caller-supplied functions; they are modelled by an
environment mapping callback identifiers to behaviours, where a behaviour
may either return normally or throw an error value (a `Nat`).  Every
observable callback interaction — an animator invocation, a promise
rejection (`_onError`), a promise resolution (`_onCompleted`) — is recorded
as an event, so theorems can speak about invocation counts and about how
the chain's completion signal settles.

A synchronous sweep is modelled as happening at a single wall instant:
`performance.now()` does not advance while the JavaScript callback runs
atomically, so both the `now` read in `_poll` and the read in
`_initializeAnimation` see the same wall time.
-/

namespace Newcarx

/-! ## Virtual clock (`AnimationClock`) -/

/-- State of `AnimationClock`: `_pausedTime`, `_isPaused`, `_offset`. -/
structure ClockState where
  pausedTime : ℚ
  isPaused : Bool
  offset : ℚ
deriving DecidableEq

/-- `new AnimationClock()` / `reset()`: zero everything, running. -/
def ClockState.reset : ClockState := ⟨0, false, 0⟩

/-- `now()`: frozen snapshot while paused, otherwise wall time minus offset. -/
def ClockState.now (c : ClockState) (wall : ℚ) : ℚ :=
  if c.isPaused then c.pausedTime else wall - c.offset

/-- `pause()`: if running, freeze `now()` into `_pausedTime`. -/
def ClockState.pause (c : ClockState) (wall : ℚ) : ClockState :=
  if !c.isPaused then { c with pausedTime := c.now wall, isPaused := true } else c

/-- `resume()`: if paused, add `performance.now() - _pausedTime` to `_offset`.
(This is exactly what the source does: it subtracts the frozen *virtual*
time from the wall time, not the wall time at which the pause began.) -/
def ClockState.resume (c : ClockState) (wall : ℚ) : ClockState :=
  if c.isPaused then { c with offset := c.offset + (wall - c.pausedTime), isPaused := false } else c

/-! ## Chain nodes (`AnimationTimelineNodeImpl`) -/

/-- One `AnimationTimelineNodeImpl`.  `effect`/`timing` are identifiers into
the callback environment (`none` = the callback is absent).  `sub` is the
static chain link `_subNode`; `prev`/`next` are the active-slot list links
`_prevNode`/`_nextNode`.  `chain` identifies which chain's deferred promise
the node's `_onError` rejects; `hasOnCompleted` says whether `_onCompleted`
is attached (true exactly on the terminal node of a chain built by
`enqueue`). -/
structure NodeData where
  duration : ℚ
  effect : Option ℕ
  timing : Option ℕ
  started : Bool
  startTime : ℚ
  completed : Bool
  error : Bool
  sub : Option ℕ
  prev : Option ℕ
  next : Option ℕ
  hasOnCompleted : Bool
  chain : ℕ
deriving DecidableEq

instance : Inhabited NodeData :=
  ⟨⟨0, none, none, false, 0, false, false, none, none, none, false, 0⟩⟩

/-! ## Scheduler state (`AnimationTimelineImpl`) -/

/-- State of `AnimationTimelineImpl`: the arena of every node object ever
created (index = identity), `_nextNode` (head of the active-slot list),
`_tailNode`, `_timer` (whether a frame-driver subscription is live),
`_isPolling`, and the clock. -/
structure Sched where
  arena : List NodeData
  head : Option ℕ
  tail : Option ℕ
  timer : Bool
  isPolling : Bool
  clock : ClockState
deriving DecidableEq

/-- The freshly constructed timeline. -/
def initSched : Sched := ⟨[], none, none, false, false, ClockState.reset⟩

/-- Dereference a node id (object identity) in the arena. -/
def getN (s : Sched) (i : ℕ) : NodeData := s.arena.getD i default

/-- Mutate the node object with identity `i`. -/
def setN (s : Sched) (i : ℕ) (n : NodeData) : Sched :=
  { s with arena := s.arena.set i n }

/-- Observable callback interactions. `effectCall node eid applied raw`
records that node `node`'s animator `eid` was invoked with
`(applied, raw)`; `rejectChain c e` records `_onError(e)` — the rejection
of chain `c`'s deferred promise; `resolveChain c` records `_onCompleted()`
— its resolution. -/
inductive Ev where
  | effectCall (node : ℕ) (eid : ℕ) (applied : ℚ) (raw : ℚ)
  | rejectChain (chain : ℕ) (e : ℕ)
  | resolveChain (chain : ℕ)
deriving DecidableEq

/-- Behaviour of the caller-supplied callbacks.  `effectRun eid x t = some e`
means animator `eid` throws `e` when invoked at `(x, t)`; `none` means it
returns normally.  `timingRun tid t` either yields the transformed progress
or throws. -/
structure Env where
  effectRun : ℕ → ℚ → ℚ → Option ℕ
  timingRun : ℕ → ℚ → Except ℕ ℚ

/-! ## Node mechanics: `_tick` -/

/-- `Math.min(Math.max(x, 0), 1)` from `_calculateProgress`. -/
def clampQ (x : ℚ) : ℚ := min (max x 0) 1

/-- `_applyAnimation(progress)`: if an animator is present, run the timing
transform (when present) and then the animator.  Returns the emitted
events and, when a callback threw, the thrown value. -/
def applyAnimation (env : Env) (i : ℕ) (n : NodeData) (progress : ℚ) :
    List Ev × Option ℕ :=
  match n.effect with
  | none => ([], none)
  | some eid =>
    match n.timing with
    | none =>
      match env.effectRun eid progress progress with
      | none => ([Ev.effectCall i eid progress progress], none)
      | some e => ([Ev.effectCall i eid progress progress], some e)
    | some tid =>
      match env.timingRun tid progress with
      | Except.error e => ([], some e)
      | Except.ok x =>
        match env.effectRun eid x progress with
        | none => ([Ev.effectCall i eid x progress], none)
        | some e => ([Ev.effectCall i eid x progress], some e)

/-- `_initializeAnimation()` guarded by `_started`: the first tick latches
the start time from the clock. -/
def latchStart (clockNow : ℚ) (n : NodeData) : NodeData :=
  if n.started then n else { n with started := true, startTime := clockNow }

/-- `_tick(ts)` on node `i`.  `clockNow` is what `timeline.clock.now()`
returns inside `_initializeAnimation`; in a synchronous sweep it equals the
`ts` passed by `_poll`.  Returns the updated node object, the boolean
result of `_tick`, and the events.  A thrown callback is caught here
(`_handleError`): the error flag is set and `_onError` fires. -/
def tickNode (env : Env) (i : ℕ) (clockNow ts : ℚ) (n : NodeData) :
    NodeData × Bool × List Ev :=
  if n.completed || n.error then (n, true, [])
  else
    let n1 := latchStart clockNow n
    let progress := clampQ ((ts - n1.startTime) / n1.duration)
    let r := applyAnimation env i n1 progress
    match r.2 with
    | some e => ({ n1 with error := true }, true, r.1 ++ [Ev.rejectChain n1.chain e])
    | none => (n1, decide (1 ≤ progress), r.1)

/-- The raw progress a tick computes: `clamp((ts - start) / duration, 0, 1)`
with the start time as latched by this tick. -/
def rawProgressOf (clockNow ts : ℚ) (n : NodeData) : ℚ :=
  clampQ ((ts - (latchStart clockNow n).startTime) / n.duration)

/-- `timing ? timing(rawProgress) : rawProgress` — the progress value handed
to the animator, or the value the timing function threw. -/
def appliedOf (env : Env) (t : Option ℕ) (raw : ℚ) : Except ℕ ℚ :=
  match t with
  | none => Except.ok raw
  | some tid => env.timingRun tid raw

/-! ## Node mechanics: `_remove`, `_replace`, `_complete`, `revoke` -/

/-- `_remove()` step 1: `if (this._prevNode) this._prevNode._nextNode =
this._nextNode; else timeline._nextNode = this._nextNode`. -/
def removeStep1 (s : Sched) (i : ℕ) : Sched :=
  match (getN s i).prev with
  | some p => setN s p { getN s p with next := (getN s i).next }
  | none => { s with head := (getN s i).next }

/-- `_remove()` step 2: `if (this._nextNode) this._nextNode._prevNode =
this._prevNode`. -/
def removeStep2 (s : Sched) (i : ℕ) : Sched :=
  match (getN s i).next with
  | some q => setN s q { getN s q with prev := (getN s i).prev }
  | none => s

/-- `_remove()` step 3: `if (timeline._tailNode === this) timeline._tailNode
= this._prevNode`, written as a conditional field value (same state: the
read is pure and the branch value is otherwise the old field). -/
def removeStep3 (s : Sched) (i : ℕ) : Sched :=
  { s with tail := if s.tail = some i then (getN s i).prev else s.tail }

/-- `_remove()` step 4: `if (timeline._nextNode === this) timeline._nextNode
= this._nextNode`, as a conditional field value. -/
def removeStep4 (s : Sched) (i : ℕ) : Sched :=
  { s with head := if s.head = some i then (getN s i).next else s.head }

/-- `_remove()` on node `i`: splice the node out of the active-slot list,
fix up `_tailNode`/`_nextNode` of the timeline, then fire `_onCompleted`
if present.  Each step reads the live state in source order. -/
def removeNode (s : Sched) (i : ℕ) : Sched × List Ev :=
  let s4 := removeStep4 (removeStep3 (removeStep2 (removeStep1 s i) i) i) i
  (s4, if (getN s4 i).hasOnCompleted then [Ev.resolveChain (getN s4 i).chain] else [])

/-- `_replace` step 1: `node._prevNode = this._prevNode; node._nextNode =
this._nextNode`. -/
def replaceStep1 (s : Sched) (i j : ℕ) : Sched :=
  setN s j { getN s j with prev := (getN s i).prev, next := (getN s i).next }

/-- `_updateTimelineReferences`: `if (timeline._tailNode == this)
timeline._tailNode = node; if (timeline._nextNode == this)
timeline._nextNode = node`, as conditional field values. -/
def replaceStep2 (s : Sched) (i j : ℕ) : Sched :=
  { s with tail := if s.tail = some i then some j else s.tail,
           head := if s.head = some i then some j else s.head }

/-- `_updateNodeLinks` first half: `if (this._prevNode)
this._prevNode._nextNode = node`. -/
def replaceStep3 (s : Sched) (i j : ℕ) : Sched :=
  match (getN s i).prev with
  | some p => setN s p { getN s p with next := some j }
  | none => s

/-- `_updateNodeLinks` second half: `if (this._nextNode)
this._nextNode._prevNode = node`. -/
def replaceStep4 (s : Sched) (i j : ℕ) : Sched :=
  match (getN s i).next with
  | some q => setN s q { getN s q with prev := some j }
  | none => s

/-- `_replace(node)` on node `i` with successor `j`: the successor inherits
the slot's links, `_tailNode`/`_nextNode` and the neighbours are repointed
to `j`, then `_onCompleted` fires if present. -/
def replaceNode (s : Sched) (i j : ℕ) : Sched × List Ev :=
  let s5 := replaceStep4 (replaceStep3 (replaceStep2 (replaceStep1 s i j) i j) i j) i j
  (s5, if (getN s5 i).hasOnCompleted then [Ev.resolveChain (getN s5 i).chain] else [])

/-- `_complete()` on node `i`: idempotent via the completed flag; then
promote (`_replace`) when a static successor exists and the node did not
error, otherwise retire (`_remove`). -/
def completeNode (s : Sched) (i : ℕ) : Sched × List Ev :=
  if (getN s i).completed then (s, [])
  else
    let s1 := setN s i { getN s i with completed := true }
    match (getN s1 i).sub with
    | some j => if !(getN s1 i).error then replaceNode s1 i j else removeNode s1 i
    | none => removeNode s1 i

/-- The loop body of `_revokeSubNodes`: walk the static chain, marking each
not-yet-completed node completed and removing it.  `fuel` bounds the walk
(every chain built by `enqueue` is strictly shorter than the arena). -/
def revokeGo (s : Sched) (cur : Option ℕ) : ℕ → Sched × List Ev
  | 0 => (s, [])
  | fuel + 1 =>
    match cur with
    | none => (s, [])
    | some j =>
      let r :=
        if !(getN s j).completed then
          removeNode (setN s j { getN s j with completed := true }) j
        else (s, [])
      let r2 := revokeGo r.1 ((getN r.1 j).sub) fuel
      (r2.1, r.2 ++ r2.2)

/-- `revoke()` on node `i`: mark completed and `_remove` if not yet
completed, then `_revokeSubNodes()`. -/
def revokeNode (s : Sched) (i : ℕ) : Sched × List Ev :=
  let r :=
    if !(getN s i).completed then
      removeNode (setN s i { getN s i with completed := true }) i
    else (s, [])
  let r2 := revokeGo r.1 ((getN r.1 i).sub) r.1.arena.length
  (r2.1, r.2 ++ r2.2)

/-- `sub(index)`: walk `index` static links from node `i`.  `fuel` bounds
the walk as in `revokeGo`. -/
def subAt (s : Sched) (i : ℕ) : ℕ → Option ℕ
  | 0 => some i
  | k + 1 =>
    match (getN s i).sub with
    | none => none
    | some j => subAt s j k

/-- The static chain starting at node `i`: the node ids reachable through
`sub` links, bounded by `fuel`. -/
def staticChain (s : Sched) (i : ℕ) : ℕ → List ℕ
  | 0 => []
  | fuel + 1 =>
    i ::
      (match (getN s i).sub with
      | none => []
      | some j => staticChain s j fuel)

/-! ## Scheduler: enqueue (`animate`) -/

/-- The canonical Segment Spec shape `{duration, animator?, timing?}`. -/
structure SegSpec where
  duration : ℚ
  effect : Option ℕ
  timing : Option ℕ
deriving DecidableEq

/-- `AnimationInitial`: object form, positional tuple, or bare number. -/
inductive AnimationInitial where
  | obj (duration : ℚ) (effect : Option ℕ) (timing : Option ℕ)
  | tup (duration : ℚ) (effect : Option ℕ) (timing : Option ℕ)
  | num (duration : ℚ)
deriving DecidableEq

/-- `_normalizeAnimationInitials` on a single input. -/
def normalizeInit : AnimationInitial → SegSpec
  | .obj d a t => ⟨d, a, t⟩
  | .tup d a t => ⟨d, a, t⟩
  | .num d => ⟨d, none, none⟩

/-- A fresh node object for segment `spec` of chain `chain` (constructor
call in `_createRootNode` / `_createAndLinkChildNodes`; only the root gets
a `_prevNode` argument). -/
def mkNode (chain : ℕ) (spec : SegSpec) (prev : Option ℕ) : NodeData :=
  { duration := spec.duration, effect := spec.effect, timing := spec.timing,
    started := false, startTime := 0, completed := false, error := false,
    sub := none, prev := prev, next := none, hasOnCompleted := false,
    chain := chain }

/-- `_createAndLinkChildNodes`: allocate one child per remaining spec,
chaining `_subNode` links, then attach `_onCompleted` to the last node. -/
def addChildren (s : Sched) (chain cur : ℕ) : List SegSpec → Sched
  | [] => setN s cur { getN s cur with hasOnCompleted := true }
  | spec :: rest =>
    let cid := s.arena.length
    let s1 := { s with arena := s.arena ++ [mkNode chain spec none] }
    let s2 := setN s1 cur { getN s1 cur with sub := some cid }
    addChildren s2 chain cid rest

/-- `_launch()`: subscribe to the frame driver if not already subscribed. -/
def launch (s : Sched) : Sched :=
  if s.timer then s else { s with isPolling := true, timer := true }

/-- `start()`: no-op if subscribed or paused; otherwise reset the clock and
launch. -/
def startTimeline (s : Sched) : Sched :=
  if !s.timer && !s.clock.isPaused then
    launch { s with clock := ClockState.reset }
  else s

/-- `enqueue(...inits)` = `animate(...inits)`: validate non-emptiness,
normalize, build and link the chain, start if idle.  Returns the new state
and the Chain Handle (the root node's identity), or `none` when the call
throws on an empty list. -/
def enqueue (s : Sched) (inits : List AnimationInitial) : Option (Sched × ℕ) :=
  match inits.map normalizeInit with
  | [] => none
  | first :: rest =>
    let rootId := s.arena.length
    let s1 := { s with arena := s.arena ++ [mkNode rootId first s.tail] }
    let s2 := if s1.head = none then { s1 with head := some rootId } else s1
    let s3 :=
      match s2.tail with
      | some t => setN s2 t { getN s2 t with next := some rootId }
      | none => s2
    let s4 := { s3 with tail := some rootId }
    let s5 := addChildren s4 rootId rootId rest
    let s6 := if !s5.isPolling then startTimeline s5 else s5
    some (s6, rootId)

/-! ## Scheduler: the sweep (`_poll`) -/

/-- The `while` loop of `_processNodes`: tick the occupant `cur`, record it
when its tick reported completion, then follow the live `_nextNode` link.
`fuel` bounds the traversal. -/
def processGo (env : Env) (now : ℚ) (s : Sched) (cur : Option ℕ) :
    ℕ → Sched × List ℕ × List Ev
  | 0 => (s, [], [])
  | fuel + 1 =>
    match cur with
    | none => (s, [], [])
    | some i =>
      let t := tickNode env i now now (getN s i)
      let s1 := setN s i t.1
      let r := processGo env now s1 t.1.next fuel
      (r.1, (if t.2.1 then [i] else []) ++ r.2.1, t.2.2 ++ r.2.2)

/-- `_processNodes(ts)`: one forward pass over the active-slot list. -/
def processNodes (env : Env) (now : ℚ) (s : Sched) : Sched × List ℕ × List Ev :=
  processGo env now s s.head (s.arena.length + 1)

/-- `_completeNodes`: invoke `_complete()` on each collected node in
collection order. -/
def completeNodes (s : Sched) : List ℕ → Sched × List Ev
  | [] => (s, [])
  | i :: rest =>
    let r := completeNode s i
    let r2 := completeNodes r.1 rest
    (r2.1, r.2 ++ r2.2)

/-- `reset()`: cancel any frame subscription, zero the clock, clear the
active-slot list. -/
def resetTimeline (s : Sched) : Sched :=
  { s with timer := false, clock := ClockState.reset,
           head := none, tail := none, isPolling := false }

/-- `_cleanup()`: drop the timer handle and reset. -/
def cleanup (s : Sched) : Sched := resetTimeline { s with timer := false }

/-- `_poll()`: nothing when paused or the list is empty; otherwise read the
clock once, run the pass, apply the collected completions, and report
whether occupants remain. -/
def poll (env : Env) (wall : ℚ) (s : Sched) : Sched × Bool × List Ev :=
  if s.clock.isPaused || s.head = none then (s, false, [])
  else
    let now := s.clock.now wall
    let pr := processNodes env now s
    let cr := if pr.2.1.isEmpty then (pr.1, []) else completeNodes pr.1 pr.2.1
    let hasMore := cr.1.head ≠ none
    let s3 := if hasMore then cr.1 else { cr.1 with isPolling := false }
    (s3, hasMore, pr.2.2 ++ cr.2)

/-- One firing of the frame-driver callback (the `loop` closure of
`_launch`): runs only while subscribed; re-subscribes after a live poll,
cleans up after a dead one. -/
def frameStep (env : Env) (wall : ℚ) (s : Sched) : Sched × List Ev :=
  if !s.timer then (s, [])
  else
    let r := poll env wall s
    (if r.2.1 then r.1 else cleanup r.1, r.2.2)

/-- Run the frame driver at the given wall instants, accumulating events. -/
def runSteps (env : Env) (s : Sched) : List ℚ → Sched × List Ev
  | [] => (s, [])
  | w :: ws =>
    let r := frameStep env w s
    let r2 := runSteps env r.1 ws
    (r2.1, r.2 ++ r2.2)

/-- The node ids reachable from `cur` through active-slot `next` links,
fuel-bounded. -/
def reachAux (s : Sched) (cur : Option ℕ) : ℕ → List ℕ
  | 0 => []
  | fuel + 1 =>
    match cur with
    | none => []
    | some i => i :: reachAux s ((getN s i).next) fuel

/-- The occupants of the active-slot list, in traversal order.  The fuel
`length + 1` suffices for every duplicate-free list of arena ids. -/
def activeIds (s : Sched) : List ℕ := reachAux s s.head (s.arena.length + 1)

/-! ## Scheduler: pause / resume -/

/-- `pause()`: only acts when not paused *and* a frame subscription exists;
then cancels the subscription and pauses the clock. -/
def pauseTimeline (wall : ℚ) (s : Sched) : Sched :=
  if !s.clock.isPaused && s.timer then
    { s with timer := false, clock := s.clock.pause wall }
  else s

/-- `resume()`: only acts when paused; resumes the clock and re-launches. -/
def resumeTimeline (wall : ℚ) (s : Sched) : Sched :=
  if s.clock.isPaused then launch { s with clock := s.clock.resume wall } else s

/-- The record node `x` holds after `removeNode s i` finishes: its `next`
is redirected when it was the removed node's predecessor, its `prev` when
it was the successor. -/
def removedAt (s : Sched) (i x : ℕ) : NodeData :=
  let n := getN s i
  let a := getN s x
  let a1 := if n.prev = some x then { a with next := n.next } else a
  if n.next = some x then { a1 with prev := n.prev } else a1

/-- The record node `x` holds after `replaceNode s i j` finishes: `j` has
inherited `i`'s links, and `i`'s old neighbours point at `j`. -/
def replacedAt (s : Sched) (i j x : ℕ) : NodeData :=
  let n := getN s i
  let a := if j = x then { getN s x with prev := n.prev, next := n.next } else getN s x
  let a1 := if n.prev = some x then { a with next := some j } else a
  if n.next = some x then { a1 with prev := some j } else a1

/-! ## Concrete scenarios -/

/-- Callback environment for the scenarios: animator `1` always throws `7`;
every other animator returns normally; timing transforms are the
identity. -/
def envA : Env := ⟨fun eid _ _ => if eid = 1 then some 7 else none, fun _ t => .ok t⟩

/-- Does this event record an animator invocation on node `n`? -/
def isEffectCallOf (n : ℕ) : Ev → Bool
  | .effectCall m _ _ _ => m == n
  | _ => false

/-- Does this event settle (resolve or reject) chain `c`'s promise? -/
def settlesChain (c : ℕ) : Ev → Bool
  | .resolveChain m => m == c
  | .rejectChain m _ => m == c
  | _ => false

/-- Scenario for the handle-error claim: a two-phase chain whose second
phase's animator throws `7`. -/
def c1s : Sched × ℕ :=
  (enqueue initSched [.obj 1 none none, .obj 1 (some 1) none]).getD (initSched, 0)

/-- Drive the two-phase chain to the erroring tick: phase 1 finishes at
wall 1, phase 2 first ticks (and throws) at wall 2. -/
def c1run : Sched × List Ev := runSteps envA c1s.1 [0, 1, 2]

/-- Scenario for chain independence: chain A = two 1ms no-op phases
(nodes 0, 1, chain id 0). -/
def c2sA : Sched × ℕ := (enqueue initSched [.num 1, .num 1]).getD (initSched, 0)

/-- ... then chain B = one 5ms phase running animator `0`
(node 2, chain id 2). -/
def c2sAB : Sched × ℕ := (enqueue c2sA.1 [.obj 5 (some 0) none]).getD (initSched, 0)

/-- Revoke chain A through its handle before any frame fires. -/
def c2rev : Sched × List Ev := revokeNode c2sAB.1 c2sA.2

/-- Frames after the revocation. -/
def c2runRevoked : Sched × List Ev := runSteps envA c2rev.1 [0, 1, 2, 3, 4, 5, 6]

/-- The same frames with no revocation: the baseline run. -/
def c2runBase : Sched × List Ev := runSteps envA c2sAB.1 [0, 1, 2, 3, 4, 5, 6]

/-- `dllB s p cur L`: starting at pointer `cur`, the ids `L` form a
doubly-linked segment of `s`'s active-slot list whose first node's
back-pointer is `p` and whose last node's forward pointer is `none`. -/
def dllB (s : Sched) (p cur : Option ℕ) : List ℕ → Bool
  | [] => cur == none
  | x :: rest =>
    cur == some x && (getN s x).prev == p &&
      dllB s (some x) ((getN s x).next) rest

/-- The scheduler's active-slot list is exactly `L`: the head chains
through `L` to `none`, the tail is `L`'s last element, and `L` is a
duplicate-free list of arena ids. -/
def wfS (s : Sched) (L : List ℕ) : Prop :=
  dllB s none s.head L = true ∧ s.tail = L.getLast? ∧ L.Nodup ∧
    ∀ x ∈ L, x < s.arena.length

instance (s : Sched) (L : List ℕ) : Decidable (wfS s L) :=
  decidable_of_iff (dllB s none s.head L = true ∧ s.tail = L.getLast? ∧
    L.Nodup ∧ ∀ x ∈ L, x < s.arena.length) Iff.rfl

/-- Two node records that agree on everything except the active-slot
links. -/
def sameFlags (n n' : NodeData) : Prop :=
  n.error = n'.error ∧ n.sub = n'.sub ∧ n.hasOnCompleted = n'.hasOnCompleted ∧
  n.chain = n'.chain ∧ n.effect = n'.effect ∧ n.timing = n'.timing ∧
  n.duration = n'.duration ∧ n.started = n'.started ∧
  n.startTime = n'.startTime ∧ n.completed = n'.completed

/-- The body shared by `revoke()` and each iteration of `_revokeSubNodes`:
mark the node completed and `_remove()` it, unless it already completed. -/
def revStep (s : Sched) (j : ℕ) : Sched × List Ev :=
  if !(getN s j).completed then
    removeNode (setN s j { getN s j with completed := true }) j
  else (s, [])

/-- Concrete state for the C3 witness: one unstarted 1ms node occupying
the only active slot of a running, subscribed scheduler. -/
def c3s : Sched :=
  ⟨[{ duration := 1, effect := none, timing := none, started := false,
      startTime := 0, completed := false, error := false, sub := none,
      prev := none, next := none, hasOnCompleted := true, chain := 0 }],
   some 0, some 0, true, true, ClockState.reset⟩

/-- Concrete state for the C4 witness: a single two-phase chain whose first
node (id 0) occupies the only active slot, with its static successor
(id 1, the terminal node carrying `_onCompleted`) not yet linked. -/
def c4s : Sched :=
  ⟨[{ duration := 1, effect := none, timing := none, started := false,
      startTime := 0, completed := false, error := false, sub := some 1,
      prev := none, next := none, hasOnCompleted := false, chain := 0 },
    { duration := 1, effect := none, timing := none, started := false,
      startTime := 0, completed := false, error := false, sub := none,
      prev := none, next := none, hasOnCompleted := true, chain := 0 }],
   some 0, some 0, true, true, ClockState.reset⟩

/-- The concrete node for the C5 witness: 2ms, animator `0`, no timing,
never ticked. -/
def c5n : NodeData :=
  { duration := 2, effect := some 0, timing := none, started := false,
    startTime := 0, completed := false, error := false, sub := none,
    prev := none, next := none, hasOnCompleted := false, chain := 3 }

/-- Scenario for the C6 witness: a two-phase chain whose first phase runs
the throwing animator `1`; the second phase is a plain 1ms delay. -/
def c6s : Sched × ℕ :=
  (enqueue initSched [.obj 1 (some 1) none, .num 1]).getD (initSched, 0)

/-- Scenario for the C7 conjuncts: a two-phase chain — a 1ms delay, then a
1ms phase running the benign animator `0` — freshly enqueued on an idle
scheduler (nodes 0 and 1, chain id 0, handle 0). -/
def c7s : Sched × ℕ :=
  (enqueue initSched [.num 1, .obj 1 (some 0) none]).getD (initSched, 0)

/-- `revoke()` on the handle before any frame fires. -/
def c7rev : Sched × List Ev := revokeNode c7s.1 c7s.2

/-- Frames after the revocation. -/
def c7post : Sched × List Ev := runSteps envA c7rev.1 [0, 1, 2, 3]

/-! ## Arena access lemmas -/

/-- `_applyAnimation` factored through `appliedOf`. -/
theorem applyAnimation_eq (env : Env) (i : ℕ) (n : NodeData) (raw : ℚ) :
    applyAnimation env i n raw =
      match n.effect with
      | none => ([], none)
      | some eid =>
        match appliedOf env n.timing raw with
        | Except.error e => ([], some e)
        | Except.ok x =>
          match env.effectRun eid x raw with
          | none => ([Ev.effectCall i eid x raw], none)
          | some e => ([Ev.effectCall i eid x raw], some e) := by
  unfold applyAnimation appliedOf
  cases n.effect <;> cases n.timing <;> rfl

@[simp] theorem setN_head (s : Sched) (j : ℕ) (m : NodeData) :
    (setN s j m).head = s.head := rfl

@[simp] theorem setN_tail (s : Sched) (j : ℕ) (m : NodeData) :
    (setN s j m).tail = s.tail := rfl

@[simp] theorem setN_timer (s : Sched) (j : ℕ) (m : NodeData) :
    (setN s j m).timer = s.timer := rfl

@[simp] theorem setN_isPolling (s : Sched) (j : ℕ) (m : NodeData) :
    (setN s j m).isPolling = s.isPolling := rfl

@[simp] theorem setN_clock (s : Sched) (j : ℕ) (m : NodeData) :
    (setN s j m).clock = s.clock := rfl

@[simp] theorem setN_arena_length (s : Sched) (j : ℕ) (m : NodeData) :
    (setN s j m).arena.length = s.arena.length := by
  simp [setN]

theorem getN_setN_self (s : Sched) (i : ℕ) (m : NodeData) (h : i < s.arena.length) :
    getN (setN s i m) i = m := by
  simp [getN, setN, List.getD_eq_getElem?_getD, List.getElem?_set_self, h]

theorem getN_setN_ne (s : Sched) (i j : ℕ) (m : NodeData) (h : i ≠ j) :
    getN (setN s i m) j = getN s j := by
  simp [getN, setN, List.getD_eq_getElem?_getD, List.getElem?_set_ne h]

@[simp] theorem getN_head_update (s : Sched) (h : Option ℕ) (x : ℕ) :
    getN { s with head := h } x = getN s x := rfl

@[simp] theorem getN_tail_update (s : Sched) (t : Option ℕ) (x : ℕ) :
    getN { s with tail := t } x = getN s x := rfl

/-- Effect of `_remove` step 1 on every observable. -/
theorem removeStep1_spec (s : Sched) (i : ℕ) :
    (removeStep1 s i).head =
      (if (getN s i).prev = none then (getN s i).next else s.head) ∧
    (removeStep1 s i).tail = s.tail ∧
    (removeStep1 s i).timer = s.timer ∧
    (removeStep1 s i).isPolling = s.isPolling ∧
    (removeStep1 s i).clock = s.clock ∧
    (removeStep1 s i).arena.length = s.arena.length ∧
    ∀ x, x < s.arena.length →
      getN (removeStep1 s i) x =
        (if (getN s i).prev = some x then
          { getN s x with next := (getN s i).next } else getN s x) := by
  unfold removeStep1
  cases hp : (getN s i).prev with
  | none =>
    refine ⟨by simp, rfl, rfl, rfl, rfl, rfl, ?_⟩
    intro x hx
    simp
  | some p =>
    refine ⟨by simp, rfl, rfl, rfl, rfl, by simp, ?_⟩
    intro x hx
    by_cases hpx : p = x
    · subst hpx
      rw [getN_setN_self _ _ _ hx]
      simp
    · rw [getN_setN_ne _ _ _ _ hpx]
      simp [hpx]

/-- Effect of `_remove` step 2 on every observable. -/
theorem removeStep2_spec (s : Sched) (i : ℕ) :
    (removeStep2 s i).head = s.head ∧
    (removeStep2 s i).tail = s.tail ∧
    (removeStep2 s i).timer = s.timer ∧
    (removeStep2 s i).isPolling = s.isPolling ∧
    (removeStep2 s i).clock = s.clock ∧
    (removeStep2 s i).arena.length = s.arena.length ∧
    ∀ x, x < s.arena.length →
      getN (removeStep2 s i) x =
        (if (getN s i).next = some x then
          { getN s x with prev := (getN s i).prev } else getN s x) := by
  unfold removeStep2
  cases hq : (getN s i).next with
  | none =>
    refine ⟨rfl, rfl, rfl, rfl, rfl, rfl, ?_⟩
    intro x hx
    simp
  | some q =>
    refine ⟨by simp, by simp, rfl, rfl, rfl, by simp, ?_⟩
    intro x hx
    by_cases hqx : q = x
    · subst hqx
      rw [getN_setN_self _ _ _ hx]
      simp
    · rw [getN_setN_ne _ _ _ _ hqx]
      simp [hqx]

/-- Effect of `_remove` step 3 on every observable. -/
theorem removeStep3_spec (s : Sched) (i : ℕ) :
    (removeStep3 s i).head = s.head ∧
    (removeStep3 s i).tail = (if s.tail = some i then (getN s i).prev else s.tail) ∧
    (removeStep3 s i).timer = s.timer ∧
    (removeStep3 s i).isPolling = s.isPolling ∧
    (removeStep3 s i).clock = s.clock ∧
    (removeStep3 s i).arena = s.arena ∧
    ∀ x, getN (removeStep3 s i) x = getN s x := by
  exact ⟨rfl, rfl, rfl, rfl, rfl, rfl, fun x => rfl⟩

/-- Effect of `_remove` step 4 on every observable. -/
theorem removeStep4_spec (s : Sched) (i : ℕ) :
    (removeStep4 s i).head = (if s.head = some i then (getN s i).next else s.head) ∧
    (removeStep4 s i).tail = s.tail ∧
    (removeStep4 s i).timer = s.timer ∧
    (removeStep4 s i).isPolling = s.isPolling ∧
    (removeStep4 s i).clock = s.clock ∧
    (removeStep4 s i).arena = s.arena ∧
    ∀ x, getN (removeStep4 s i) x = getN s x := by
  exact ⟨rfl, rfl, rfl, rfl, rfl, rfl, fun x => rfl⟩

/-- Complete characterisation of `_remove` on a node that is not its own
neighbour: the head/tail formulas, the per-record splice, the untouched
scheduler fields, and the emitted completion callback. -/
theorem removeNode_spec (s : Sched) (i : ℕ) (h0 : i < s.arena.length)
    (hpi : (getN s i).prev ≠ some i) (hni : (getN s i).next ≠ some i) :
    (removeNode s i).1.head =
      (if (getN s i).prev = none then (getN s i).next
       else if s.head = some i then (getN s i).next else s.head) ∧
    (removeNode s i).1.tail = (if s.tail = some i then (getN s i).prev else s.tail) ∧
    (removeNode s i).1.timer = s.timer ∧
    (removeNode s i).1.isPolling = s.isPolling ∧
    (removeNode s i).1.clock = s.clock ∧
    (removeNode s i).1.arena.length = s.arena.length ∧
    (∀ x, x < s.arena.length → getN (removeNode s i).1 x = removedAt s i x) ∧
    (removeNode s i).2 =
      (if (getN s i).hasOnCompleted then [Ev.resolveChain (getN s i).chain]
       else []) := by
  obtain ⟨h1h, h1t, h1tm, h1ip, h1c, h1len, h1g⟩ := removeStep1_spec s i
  have g1i : getN (removeStep1 s i) i = getN s i := by
    rw [h1g i h0]
    simp [hpi]
  obtain ⟨h2h, h2t, h2tm, h2ip, h2c, h2len, h2g⟩ := removeStep2_spec (removeStep1 s i) i
  rw [g1i] at h2g
  have len1 : (removeStep1 s i).arena.length = s.arena.length := h1len
  have g2 : ∀ x, x < s.arena.length →
      getN (removeStep2 (removeStep1 s i) i) x = removedAt s i x := by
    intro x hx
    rw [h2g x (len1 ▸ hx), h1g x hx]
    by_cases hqx : (getN s i).next = some x <;>
      by_cases hpx : (getN s i).prev = some x <;>
        simp [removedAt, hqx, hpx]
  have g2i : getN (removeStep2 (removeStep1 s i) i) i = getN s i := by
    rw [h2g i (len1 ▸ h0)]
    simp [hni, g1i]
  obtain ⟨h3h, h3t, h3tm, h3ip, h3c, h3a, h3g⟩ :=
    removeStep3_spec (removeStep2 (removeStep1 s i) i) i
  obtain ⟨h4h, h4t, h4tm, h4ip, h4c, h4a, h4g⟩ :=
    removeStep4_spec (removeStep3 (removeStep2 (removeStep1 s i) i) i) i
  have g3i : getN (removeStep3 (removeStep2 (removeStep1 s i) i) i) i = getN s i := by
    rw [h3g, g2i]
  have g4i : getN (removeStep4 (removeStep3 (removeStep2 (removeStep1 s i) i) i) i) i
      = getN s i := by
    rw [h4g, g3i]
  have hhead2 : (removeStep2 (removeStep1 s i) i).head =
      (if (getN s i).prev = none then (getN s i).next else s.head) := by
    rw [h2h, h1h]
  have htail2 : (removeStep2 (removeStep1 s i) i).tail = s.tail := by
    rw [h2t, h1t]
  refine ⟨?_, ?_, ?_, ?_, ?_, ?_, ?_, ?_⟩
  · show (removeStep4 _ i).head = _
    rw [h4h, h3h, hhead2, g3i]
    by_cases hp : (getN s i).prev = none
    · simp only [hp, if_true]
      by_cases hh : (getN s i).next = some i
      · exact absurd hh hni
      · simp [hh]
    · simp only [hp, if_false]
  · show (removeStep4 _ i).tail = _
    rw [h4t, h3t, htail2, g2i]
  · show (removeStep4 _ i).timer = _
    rw [h4tm, h3tm, h2tm, h1tm]
  · show (removeStep4 _ i).isPolling = _
    rw [h4ip, h3ip, h2ip, h1ip]
  · show (removeStep4 _ i).clock = _
    rw [h4c, h3c, h2c, h1c]
  · show (removeStep4 _ i).arena.length = _
    rw [h4a, h3a, h2len, h1len]
  · intro x hx
    show getN (removeStep4 _ i) x = _
    rw [h4g, h3g, g2 x hx]
  · show (if (getN (removeStep4 _ i) i).hasOnCompleted then _ else _) = _
    rw [g4i]

theorem removedAt_self (t : Sched) (i : ℕ) (hpi : (getN t i).prev ≠ some i)
    (hni : (getN t i).next ≠ some i) : removedAt t i i = getN t i := by
  unfold removedAt
  simp [hpi, hni]

theorem removedAt_next_of_prev (t : Sched) (i p : ℕ)
    (hp : (getN t i).prev = some p) :
    (removedAt t i p).next = (getN t i).next := by
  unfold removedAt
  simp only [hp, if_true]
  split <;> rfl

theorem removedAt_prev_of_next (t : Sched) (i q : ℕ)
    (hq : (getN t i).next = some q) :
    (removedAt t i q).prev = (getN t i).prev := by
  unfold removedAt
  simp [hq]

theorem removedAt_other (t : Sched) (i x : ℕ)
    (hpx : (getN t i).prev ≠ some x) (hnx : (getN t i).next ≠ some x) :
    removedAt t i x = getN t x := by
  unfold removedAt
  simp [hpx, hnx]

theorem removedAt_of_next (t : Sched) (i b : ℕ)
    (hq : (getN t i).next = some b) (hpb : (getN t i).prev ≠ some b) :
    removedAt t i b = { getN t b with prev := (getN t i).prev } := by
  unfold removedAt
  dsimp only
  rw [if_neg hpb, if_pos hq]

theorem removedAt_of_prev (t : Sched) (i a : ℕ)
    (hp : (getN t i).prev = some a) (hna : (getN t i).next ≠ some a) :
    removedAt t i a = { getN t a with next := (getN t i).next } := by
  unfold removedAt
  dsimp only
  rw [if_pos hp, if_neg hna]

theorem replacedAt_of_next (t : Sched) (i j b : ℕ)
    (hq : (getN t i).next = some b) (hpb : (getN t i).prev ≠ some b)
    (hjb : j ≠ b) :
    replacedAt t i j b = { getN t b with prev := some j } := by
  unfold replacedAt
  dsimp only
  rw [if_neg hjb, if_neg hpb, if_pos hq]

theorem replacedAt_of_prev (t : Sched) (i j a : ℕ)
    (hp : (getN t i).prev = some a) (hna : (getN t i).next ≠ some a)
    (hja : j ≠ a) :
    replacedAt t i j a = { getN t a with next := some j } := by
  unfold replacedAt
  dsimp only
  rw [if_neg hja, if_pos hp, if_neg hna]

theorem replacedAt_at_j (t : Sched) (i j : ℕ)
    (hpj : (getN t i).prev ≠ some j) (hnj : (getN t i).next ≠ some j) :
    replacedAt t i j j =
      { getN t j with prev := (getN t i).prev, next := (getN t i).next } := by
  unfold replacedAt
  simp [hpj, hnj]

theorem replacedAt_next_of_prev (t : Sched) (i j p : ℕ)
    (hp : (getN t i).prev = some p) :
    (replacedAt t i j p).next = some j := by
  unfold replacedAt
  simp only [hp, if_true]
  split <;> rfl

theorem replacedAt_prev_of_next (t : Sched) (i j q : ℕ)
    (hq : (getN t i).next = some q) :
    (replacedAt t i j q).prev = some j := by
  unfold replacedAt
  simp [hq]

theorem replacedAt_other (t : Sched) (i j x : ℕ) (hjx : j ≠ x)
    (hpx : (getN t i).prev ≠ some x) (hnx : (getN t i).next ≠ some x) :
    replacedAt t i j x = getN t x := by
  unfold replacedAt
  simp [hjx, hpx, hnx]

/-- Effect of `_replace` step 1 on every observable. -/
theorem replaceStep1_spec (s : Sched) (i j : ℕ) :
    (replaceStep1 s i j).head = s.head ∧
    (replaceStep1 s i j).tail = s.tail ∧
    (replaceStep1 s i j).timer = s.timer ∧
    (replaceStep1 s i j).isPolling = s.isPolling ∧
    (replaceStep1 s i j).clock = s.clock ∧
    (replaceStep1 s i j).arena.length = s.arena.length ∧
    ∀ x, x < s.arena.length →
      getN (replaceStep1 s i j) x =
        (if j = x then
          { getN s x with prev := (getN s i).prev, next := (getN s i).next }
         else getN s x) := by
  unfold replaceStep1
  refine ⟨by simp, by simp, rfl, rfl, rfl, by simp, ?_⟩
  intro x hx
  by_cases hjx : j = x
  · subst hjx
    rw [getN_setN_self _ _ _ hx]
    simp
  · rw [getN_setN_ne _ _ _ _ hjx]
    simp [hjx]

/-- Effect of `_updateTimelineReferences` on every observable. -/
theorem replaceStep2_spec (s : Sched) (i j : ℕ) :
    (replaceStep2 s i j).head = (if s.head = some i then some j else s.head) ∧
    (replaceStep2 s i j).tail = (if s.tail = some i then some j else s.tail) ∧
    (replaceStep2 s i j).timer = s.timer ∧
    (replaceStep2 s i j).isPolling = s.isPolling ∧
    (replaceStep2 s i j).clock = s.clock ∧
    (replaceStep2 s i j).arena = s.arena ∧
    ∀ x, getN (replaceStep2 s i j) x = getN s x := by
  exact ⟨rfl, rfl, rfl, rfl, rfl, rfl, fun x => rfl⟩

/-- Effect of the first half of `_updateNodeLinks` on every observable. -/
theorem replaceStep3_spec (s : Sched) (i j : ℕ) :
    (replaceStep3 s i j).head = s.head ∧
    (replaceStep3 s i j).tail = s.tail ∧
    (replaceStep3 s i j).timer = s.timer ∧
    (replaceStep3 s i j).isPolling = s.isPolling ∧
    (replaceStep3 s i j).clock = s.clock ∧
    (replaceStep3 s i j).arena.length = s.arena.length ∧
    ∀ x, x < s.arena.length →
      getN (replaceStep3 s i j) x =
        (if (getN s i).prev = some x then { getN s x with next := some j }
         else getN s x) := by
  unfold replaceStep3
  cases hp : (getN s i).prev with
  | none =>
    refine ⟨rfl, rfl, rfl, rfl, rfl, rfl, ?_⟩
    intro x hx
    simp
  | some p =>
    refine ⟨by simp, by simp, rfl, rfl, rfl, by simp, ?_⟩
    intro x hx
    by_cases hpx : p = x
    · subst hpx
      rw [getN_setN_self _ _ _ hx]
      simp
    · rw [getN_setN_ne _ _ _ _ hpx]
      simp [hpx]

/-- Effect of the second half of `_updateNodeLinks` on every observable. -/
theorem replaceStep4_spec (s : Sched) (i j : ℕ) :
    (replaceStep4 s i j).head = s.head ∧
    (replaceStep4 s i j).tail = s.tail ∧
    (replaceStep4 s i j).timer = s.timer ∧
    (replaceStep4 s i j).isPolling = s.isPolling ∧
    (replaceStep4 s i j).clock = s.clock ∧
    (replaceStep4 s i j).arena.length = s.arena.length ∧
    ∀ x, x < s.arena.length →
      getN (replaceStep4 s i j) x =
        (if (getN s i).next = some x then { getN s x with prev := some j }
         else getN s x) := by
  unfold replaceStep4
  cases hq : (getN s i).next with
  | none =>
    refine ⟨rfl, rfl, rfl, rfl, rfl, rfl, ?_⟩
    intro x hx
    simp
  | some q =>
    refine ⟨by simp, by simp, rfl, rfl, rfl, by simp, ?_⟩
    intro x hx
    by_cases hqx : q = x
    · subst hqx
      rw [getN_setN_self _ _ _ hx]
      simp
    · rw [getN_setN_ne _ _ _ _ hqx]
      simp [hqx]

/-- Complete characterisation of `_replace` (promotion): under the
no-aliasing side conditions, the successor `j` inherits `i`'s links, the
scheduler's head/tail and `i`'s old neighbours are repointed at `j`, all
other records are untouched, and `_onCompleted` fires iff `i` carries
it. -/
theorem replaceNode_spec (s : Sched) (i j : ℕ) (h0 : i < s.arena.length)
    (hji : j ≠ i)
    (hpi : (getN s i).prev ≠ some i) (hni : (getN s i).next ≠ some i)
    (hpj : (getN s i).prev ≠ some j) (hnj : (getN s i).next ≠ some j) :
    (replaceNode s i j).1.head = (if s.head = some i then some j else s.head) ∧
    (replaceNode s i j).1.tail = (if s.tail = some i then some j else s.tail) ∧
    (replaceNode s i j).1.timer = s.timer ∧
    (replaceNode s i j).1.isPolling = s.isPolling ∧
    (replaceNode s i j).1.clock = s.clock ∧
    (replaceNode s i j).1.arena.length = s.arena.length ∧
    (∀ x, x < s.arena.length → getN (replaceNode s i j).1 x = replacedAt s i j x) ∧
    (replaceNode s i j).2 =
      (if (getN s i).hasOnCompleted then [Ev.resolveChain (getN s i).chain]
       else []) := by
  obtain ⟨h1h, h1t, h1tm, h1ip, h1c, h1len, h1g⟩ := replaceStep1_spec s i j
  have g1i : getN (replaceStep1 s i j) i = getN s i := by
    rw [h1g i h0]
    simp [hji]
  obtain ⟨h2h, h2t, h2tm, h2ip, h2c, h2a, h2g⟩ :=
    replaceStep2_spec (replaceStep1 s i j) i j
  have g2i : getN (replaceStep2 (replaceStep1 s i j) i j) i = getN s i := by
    rw [h2g, g1i]
  have len2 : (replaceStep2 (replaceStep1 s i j) i j).arena.length = s.arena.length := by
    rw [h2a, h1len]
  obtain ⟨h3h, h3t, h3tm, h3ip, h3c, h3len, h3g⟩ :=
    replaceStep3_spec (replaceStep2 (replaceStep1 s i j) i j) i j
  rw [g2i] at h3g
  have g3i : getN (replaceStep3 (replaceStep2 (replaceStep1 s i j) i j) i j)
      i = getN s i := by
    rw [h3g i (len2 ▸ h0), g2i]
    simp [hpi]
  have len3 : (replaceStep3 (replaceStep2 (replaceStep1 s i j) i j) i j).arena.length =
      s.arena.length := by
    rw [h3len, len2]
  obtain ⟨h4h, h4t, h4tm, h4ip, h4c, h4len, h4g⟩ :=
    replaceStep4_spec (replaceStep3 (replaceStep2 (replaceStep1 s i j) i j) i j) i j
  rw [g3i] at h4g
  have g4i : getN (replaceStep4 (replaceStep3 (replaceStep2 (replaceStep1 s i j) i j)
      i j) i j) i = getN s i := by
    rw [h4g i (len3 ▸ h0), g3i]
    simp [hni]
  refine ⟨?_, ?_, ?_, ?_, ?_, ?_, ?_, ?_⟩
  · show (replaceStep4 _ i j).head = _
    rw [h4h, h3h, h2h, h1h]
  · show (replaceStep4 _ i j).tail = _
    rw [h4t, h3t, h2t, h1t]
  · show (replaceStep4 _ i j).timer = _
    rw [h4tm, h3tm, h2tm, h1tm]
  · show (replaceStep4 _ i j).isPolling = _
    rw [h4ip, h3ip, h2ip, h1ip]
  · show (replaceStep4 _ i j).clock = _
    rw [h4c, h3c, h2c, h1c]
  · show (replaceStep4 _ i j).arena.length = _
    rw [h4len, len3]
  · intro x hx
    show getN (replaceStep4 _ i j) x = _
    rw [h4g x (len3 ▸ hx), h3g x (len2 ▸ hx), h2g, h1g x hx]
    by_cases hjx : j = x <;> by_cases hpx : (getN s i).prev = some x <;>
      by_cases hqx : (getN s i).next = some x <;>
        first
          | (exact absurd hpx (hjx ▸ hpj))
          | (exact absurd hqx (hjx ▸ hnj))
          | simp [replacedAt, hjx, hpx, hqx]
  · show (if (getN (replaceStep4 _ i j) i).hasOnCompleted then _ else _) = _
    rw [g4i]

/-! ## C1 -/

unseal Rat.add Rat.sub Rat.mul Rat.inv in
/-- C1: the claim says that after any phase of a chain errors, the Chain
Handle's `error` getter returns true, including when the erroring phase is
a descendant node.  The code does not propagate: `_handleError` sets
`_error` only on the erroring node itself and calls `_onError` (the
promise rejection), and the handle's getter reads only the handle's own
flag.  In the two-phase scenario the second phase throws `7` (the chain's
promise is rejected, and the erroring node's own flag is set), yet the
handle still reports `error = false`. -/
theorem C1_handle_error_not_set_by_descendant :
    Ev.rejectChain 0 7 ∈ c1run.2 ∧
    (getN c1run.1 1).error = true ∧
    (getN c1run.1 c1s.2).error = false := by decide

/-! ## C2 -/

unseal Rat.add Rat.sub Rat.mul Rat.inv in
/-- C2: the claim says revoking chain A never alters chain B's completion
time or effect-invocation count.  In the code, `revoke()` walks A's static
chain and calls `_remove()` on descendants that were never linked into the
active-slot list; for such a node `_prevNode` is undefined, so `_remove`
executes `timeline._nextNode = this._nextNode` (= undefined), wiping the
scheduler's head pointer.  Concretely: with A = two no-op phases and B =
one 5ms phase with animator `0`, the baseline run invokes B's animator 6
times and resolves B (chain id 2); after `A.revoke()` the head pointer is
cleared, B's animator is never invoked, B never completes, and B's promise
never settles (while A's own promise does resolve, as revocation
promises). -/
theorem C2_revoking_A_drops_sibling_B :
    ((c2runBase.2.filter (isEffectCallOf 2)).length = 6 ∧
      Ev.resolveChain 2 ∈ c2runBase.2) ∧
    (Ev.resolveChain 0 ∈ c2rev.2 ∧
      c2rev.1.head = none ∧
      (c2runRevoked.2.filter (isEffectCallOf 2)).length = 0 ∧
      ((c2rev.2 ++ c2runRevoked.2).filter (settlesChain 2)).length = 0 ∧
      (getN c2runRevoked.1 2).completed = false) := by decide

/-! ## C8 -/

unseal Rat.add Rat.sub Rat.mul Rat.inv in
/-- C8: the claim says `pause()` then `resume()` makes `now()` continue
from the frozen pre-pause value, so virtual elapsed time equals wall
elapsed time minus the wall time spent paused.  The code's `resume()` adds
`performance.now() - _pausedTime` to the offset, but `_pausedTime` is a
*virtual* instant, so the increment overshoots by the current offset.
Starting from reset: pause at wall 100, resume at wall 150 (correct so
far: `now` continues from 100), pause again at wall 200 (frozen at virtual
150), resume at wall 250 — and `now(250)` returns 100, not 150: the clock
jumped backwards by 50, and the virtual time elapsed between the `now()`
call at wall 200 and the one at wall 250 is −50 instead of the claimed
(250 − 200) − 50 = 0.  (The idempotence half of the claim does hold; the
elapsed-time guarantee is what fails.) -/
theorem C8_resume_offset_overshoot :
    (((ClockState.reset.pause 100).resume 150).now 200 = 150 ∧
      (((ClockState.reset.pause 100).resume 150).pause 200).pausedTime = 150) ∧
    ((((ClockState.reset.pause 100).resume 150).pause 200).resume 250).now 250 = 100 ∧
    ¬((((ClockState.reset.pause 100).resume 150).pause 200).resume 250).now 250 -
        ((ClockState.reset.pause 100).resume 150).now 200 =
      (250 - 200) - (250 - 200) := by decide

/-! ## C9 -/

/-- C9 counterexample: the claim says `pause()` on *any* non-paused state —
including an idle scheduler — unsubscribes and pauses the clock.  On the
freshly created (idle, non-paused) scheduler, `pause()` is a no-op because
the guard also requires a live `_timer`; in particular the clock stays
unpaused. -/
theorem C9_pause_on_idle_is_noop :
    initSched.clock.isPaused = false ∧
    pauseTimeline 0 initSched = initSched ∧
    (pauseTimeline 0 initSched).clock.isPaused = false := by decide

/-- C9 amended: `pause()` is a no-op when the scheduler is already paused
*or* when it holds no frame-driver subscription (idle or stopped); when it
is not paused and subscribed, it cancels the subscription and pauses the
clock at its current reading, leaving the active-slot list and the nodes
untouched. -/
theorem C9_pause_semantics (s : Sched) (wall : ℚ) :
    (s.clock.isPaused = true → pauseTimeline wall s = s) ∧
    (s.clock.isPaused = false → s.timer = false → pauseTimeline wall s = s) ∧
    (s.clock.isPaused = false → s.timer = true →
      (pauseTimeline wall s).timer = false ∧
      (pauseTimeline wall s).clock.isPaused = true ∧
      (pauseTimeline wall s).clock.pausedTime = s.clock.now wall ∧
      (pauseTimeline wall s).head = s.head ∧
      (pauseTimeline wall s).tail = s.tail ∧
      (pauseTimeline wall s).arena = s.arena) := by
  refine ⟨fun h => ?_, fun h ht => ?_, fun h ht => ?_⟩
  · simp [pauseTimeline, h]
  · simp [pauseTimeline, h, ht]
  · simp [pauseTimeline, h, ht, ClockState.pause]

/-- Witness for the amended C9 theorem at a concrete subscribed state. -/
theorem C9_pause_semantics_witness :
    (pauseTimeline 5 { initSched with timer := true }).timer = false ∧
    (pauseTimeline 5 { initSched with timer := true }).clock.isPaused = true := by
  have h := (C9_pause_semantics { initSched with timer := true } 5).2.2 rfl rfl
  exact ⟨h.1, h.2.1⟩

/-! ## C10 -/

/-- C10: the public `reset()` while chains are active: the active-slot list
is cleared (head and tail dropped, frame subscription cancelled, clock
zeroed) while every node object is left bit-for-bit unchanged — in
particular no `completed`/`error` flag changes and, since `reset` never
calls `_remove`/`_replace`/`_complete`, no `_onCompleted`/`_onError`
callback fires, so no chain promise is resolved or rejected.  Afterwards
the frame driver is detached, so a subsequent frame pulse does nothing and
emits no event: the dropped chains' promises can never settle through the
scheduler. -/
theorem C10_reset_drops_chains_without_settling (s : Sched) (env : Env) (w : ℚ) :
    (resetTimeline s).arena = s.arena ∧
    (∀ i, getN (resetTimeline s) i = getN s i) ∧
    (resetTimeline s).head = none ∧
    (resetTimeline s).tail = none ∧
    (resetTimeline s).timer = false ∧
    (resetTimeline s).clock = ClockState.reset ∧
    frameStep env w (resetTimeline s) = (resetTimeline s, []) := by
  refine ⟨rfl, fun i => rfl, rfl, rfl, rfl, rfl, ?_⟩
  simp [frameStep, resetTimeline]

/-! ## Sweep machinery -/

/-- `_tick` never touches the identity-carrying or structural fields of a
node: only `started`, `startTime` and `error` can change. -/
theorem tickNode_fields (env : Env) (i : ℕ) (cn ts : ℚ) (n : NodeData) :
    (tickNode env i cn ts n).1.effect = n.effect ∧
    (tickNode env i cn ts n).1.timing = n.timing ∧
    (tickNode env i cn ts n).1.duration = n.duration ∧
    (tickNode env i cn ts n).1.completed = n.completed ∧
    (tickNode env i cn ts n).1.sub = n.sub ∧
    (tickNode env i cn ts n).1.prev = n.prev ∧
    (tickNode env i cn ts n).1.next = n.next ∧
    (tickNode env i cn ts n).1.hasOnCompleted = n.hasOnCompleted ∧
    (tickNode env i cn ts n).1.chain = n.chain := by
  unfold tickNode
  by_cases h : (n.completed || n.error) = true
  · simp [h]
  · simp only [h, if_false]
    cases (applyAnimation env i (latchStart cn n)
        (clampQ ((ts - (latchStart cn n).startTime) /
          (latchStart cn n).duration))).2 <;>
      unfold latchStart <;> by_cases hs : n.started = true <;> simp [hs]

theorem tickNode_next (env : Env) (i : ℕ) (cn ts : ℚ) (n : NodeData) :
    (tickNode env i cn ts n).1.next = n.next :=
  (tickNode_fields env i cn ts n).2.2.2.2.2.2.1

theorem tickNode_completed (env : Env) (i : ℕ) (cn ts : ℚ) (n : NodeData) :
    (tickNode env i cn ts n).1.completed = n.completed :=
  (tickNode_fields env i cn ts n).2.2.2.1

/-- Traversal only looks at `next` links, so a state differing at a single
node the traversal avoids yields the same traversal. -/
theorem reachAux_congr (s s' : Sched) (i : ℕ)
    (hg : ∀ x, x ≠ i → getN s' x = getN s x) :
    ∀ (f : ℕ) (cur : Option ℕ), i ∉ reachAux s cur f →
      reachAux s' cur f = reachAux s cur f := by
  intro f
  induction f with
  | zero => intro cur h; rfl
  | succ f ih =>
    intro cur h
    cases cur with
    | none => rfl
    | some x =>
      rw [show reachAux s (some x) (f + 1) =
            x :: reachAux s ((getN s x).next) f from rfl] at h
      rw [show reachAux s' (some x) (f + 1) =
            x :: reachAux s' ((getN s' x).next) f from rfl,
          show reachAux s (some x) (f + 1) =
            x :: reachAux s ((getN s x).next) f from rfl]
      have hxi : x ≠ i := by
        intro he
        exact h (he ▸ List.mem_cons_self _ _)
      rw [hg x hxi]
      rw [ih _ (fun hm => h (List.mem_cons_of_mem _ hm))]

/-- Traversal is invariant under any state change preserving all `next`
links. -/
theorem reachAux_congr_next (s s' : Sched)
    (hg : ∀ x, (getN s' x).next = (getN s x).next) :
    ∀ (f : ℕ) (cur : Option ℕ), reachAux s' cur f = reachAux s cur f := by
  intro f
  induction f with
  | zero => intro cur; rfl
  | succ f ih =>
    intro cur
    cases cur with
    | none => rfl
    | some x =>
      rw [show reachAux s' (some x) (f + 1) =
            x :: reachAux s' ((getN s' x).next) f from rfl,
          show reachAux s (some x) (f + 1) =
            x :: reachAux s ((getN s x).next) f from rfl,
          hg x, ih]

/-- `_processNodes`'s loop (`processGo`): ticks exactly the occupants that
the start state's links enumerate, all with the same `now`; never touches
links, head, tail or any node outside the traversal; collects exactly the
occupants whose tick reported done, in traversal order; and emits exactly
the concatenated tick events. -/
theorem processGo_spec (env : Env) (now : ℚ) :
    ∀ (fuel : ℕ) (s : Sched) (cur : Option ℕ),
      (∀ x ∈ reachAux s cur fuel, x < s.arena.length) →
      (reachAux s cur fuel).Nodup →
      ((processGo env now s cur fuel).1.head = s.head ∧
        (processGo env now s cur fuel).1.tail = s.tail ∧
        (processGo env now s cur fuel).1.timer = s.timer ∧
        (processGo env now s cur fuel).1.isPolling = s.isPolling ∧
        (processGo env now s cur fuel).1.clock = s.clock ∧
        (processGo env now s cur fuel).1.arena.length = s.arena.length) ∧
      (∀ x, x ∉ reachAux s cur fuel →
        getN (processGo env now s cur fuel).1 x = getN s x) ∧
      (∀ i, i ∈ reachAux s cur fuel →
        getN (processGo env now s cur fuel).1 i =
          (tickNode env i now now (getN s i)).1) ∧
      (processGo env now s cur fuel).2.1 =
        (reachAux s cur fuel).filter
          (fun i => (tickNode env i now now (getN s i)).2.1) ∧
      (processGo env now s cur fuel).2.2 =
        (reachAux s cur fuel).flatMap
          (fun i => (tickNode env i now now (getN s i)).2.2) := by
  intro fuel
  induction fuel with
  | zero =>
    intro s cur hb hnd
    exact ⟨⟨rfl, rfl, rfl, rfl, rfl, rfl⟩, fun x _ => rfl,
      fun i hi => absurd hi (by simp [reachAux]),
      by simp [reachAux, processGo], by simp [reachAux, processGo]⟩
  | succ fuel ih =>
    intro s cur hb hnd
    cases cur with
    | none =>
      exact ⟨⟨rfl, rfl, rfl, rfl, rfl, rfl⟩, fun x _ => rfl,
        fun i hi => absurd hi (by simp [reachAux]),
        by simp [reachAux, processGo], by simp [reachAux, processGo]⟩
    | some i =>
      have hL : reachAux s (some i) (fuel + 1) =
          i :: reachAux s ((getN s i).next) fuel := rfl
      rw [hL] at hb hnd
      have hi0 : i < s.arena.length := hb i (List.mem_cons_self _ _)
      have hnotin : i ∉ reachAux s ((getN s i).next) fuel :=
        (List.nodup_cons.mp hnd).1
      have hndtail : (reachAux s ((getN s i).next) fuel).Nodup :=
        (List.nodup_cons.mp hnd).2
      have g1 : getN (setN s i (tickNode env i now now (getN s i)).1) i =
          (tickNode env i now now (getN s i)).1 := getN_setN_self _ _ _ hi0
      have gother : ∀ x, x ≠ i →
          getN (setN s i (tickNode env i now now (getN s i)).1) x = getN s x :=
        fun x hx => getN_setN_ne _ _ _ _ (fun h => hx h.symm)
      have hreach1 : reachAux (setN s i (tickNode env i now now (getN s i)).1)
          ((getN s i).next) fuel = reachAux s ((getN s i).next) fuel :=
        reachAux_congr s _ i gother fuel _ hnotin
      have hred : processGo env now s (some i) (fuel + 1) =
          (let t := tickNode env i now now (getN s i)
           let r := processGo env now (setN s i t.1) t.1.next fuel
           (r.1, (if t.2.1 then [i] else []) ++ r.2.1, t.2.2 ++ r.2.2)) := rfl
      rw [hred]
      simp only [tickNode_next]
      obtain ⟨⟨f1, f2, f3, f4, f5, f6⟩, hout, hin, hcomp, hev⟩ :=
        ih (setN s i (tickNode env i now now (getN s i)).1) ((getN s i).next)
          (by
            rw [hreach1]
            intro x hx
            simpa using hb x (List.mem_cons_of_mem _ hx))
          (by rw [hreach1]; exact hndtail)
      rw [hreach1] at hout hin hcomp hev
      refine ⟨⟨?_, ?_, ?_, ?_, ?_, ?_⟩, ?_, ?_, ?_, ?_⟩
      · rw [f1]; rfl
      · rw [f2]; rfl
      · rw [f3]; rfl
      · rw [f4]; rfl
      · rw [f5]; rfl
      · rw [f6]; simp
      · intro x hx
        rw [hL] at hx
        have hxi : x ≠ i := fun h => hx (h ▸ List.mem_cons_self _ _)
        rw [hout x (fun hm => hx (List.mem_cons_of_mem _ hm)), gother x hxi]
      · intro j hj
        rw [hL] at hj
        rcases List.mem_cons.mp hj with hj | hj
        · subst hj
          rw [hout j hnotin, g1]
        · have hji : j ≠ i := fun h => hnotin (h ▸ hj)
          rw [hin j hj, gother j hji]
      · rw [hL, List.filter_cons, hcomp]
        have : ∀ j ∈ reachAux s ((getN s i).next) fuel,
            (tickNode env j now now
              (getN (setN s i (tickNode env i now now (getN s i)).1) j)).2.1 =
            (tickNode env j now now (getN s j)).2.1 := by
          intro j hj
          have hji : j ≠ i := fun h => hnotin (h ▸ hj)
          rw [gother j hji]
        rw [List.filter_congr this]
        split <;> simp
      · rw [hL, List.flatMap_cons, hev]
        have hmap : (reachAux s ((getN s i).next) fuel).map
            (fun j => (tickNode env j now now
              (getN (setN s i (tickNode env i now now (getN s i)).1) j)).2.2) =
            (reachAux s ((getN s i).next) fuel).map
              (fun j => (tickNode env j now now (getN s j)).2.2) := by
          apply List.map_congr_left
          intro j hj
          have hji : j ≠ i := fun h => hnotin (h ▸ hj)
          rw [gother j hji]
        simp only [List.flatMap]
        rw [hmap]

theorem completeNodes_nil (t : Sched) : completeNodes t [] = (t, []) := rfl

/-! ## Active-slot list representation -/

theorem dllB_cons (s : Sched) (p cur : Option ℕ) (x : ℕ) (rest : List ℕ) :
    dllB s p cur (x :: rest) = true ↔
      (cur = some x ∧ (getN s x).prev = p ∧
        dllB s (some x) ((getN s x).next) rest = true) := by
  simp [dllB, Bool.and_eq_true, beq_iff_eq, and_assoc]

theorem dllB_congr (s s' : Sched) :
    ∀ (l : List ℕ), (∀ x ∈ l, getN s' x = getN s x) →
      ∀ p cur, dllB s' p cur l = dllB s p cur l := by
  intro l
  induction l with
  | nil => intro _ p cur; rfl
  | cons x rest ih =>
    intro h p cur
    have hx : getN s' x = getN s x := h x (List.mem_cons_self _ _)
    show (cur == some x && (getN s' x).prev == p &&
        dllB s' (some x) ((getN s' x).next) rest) = _
    rw [hx, ih (fun y hy => h y (List.mem_cons_of_mem _ hy))]
    rfl

theorem dll_head (s : Sched) (p cur : Option ℕ) (l : List ℕ)
    (h : dllB s p cur l = true) : cur = l.head? := by
  cases l with
  | nil => simpa [dllB] using h
  | cons x rest => exact ((dllB_cons s p cur x rest).mp h).1

theorem dll_next (s : Sched) (i : ℕ) (B : List ℕ) :
    ∀ (A : List ℕ) (p cur : Option ℕ),
      dllB s p cur (A ++ i :: B) = true → (getN s i).next = B.head? := by
  intro A
  induction A with
  | nil =>
    intro p cur h
    obtain ⟨_, _, h3⟩ := (dllB_cons s p cur i B).mp h
    exact dll_head s _ _ _ h3
  | cons a A' ih =>
    intro p cur h
    obtain ⟨_, _, h3⟩ := (dllB_cons s p cur a (A' ++ i :: B)).mp h
    exact ih _ _ h3

theorem dll_prev (s : Sched) (i : ℕ) (B : List ℕ) :
    ∀ (A : List ℕ) (p cur : Option ℕ),
      dllB s p cur (A ++ i :: B) = true →
      (getN s i).prev = (match A.getLast? with | none => p | some y => some y) := by
  intro A
  induction A with
  | nil =>
    intro p cur h
    exact ((dllB_cons s p cur i B).mp h).2.1
  | cons a A' ih =>
    intro p cur h
    obtain ⟨_, _, h3⟩ := (dllB_cons s p cur a (A' ++ i :: B)).mp h
    have := ih _ _ h3
    cases hA : A'.getLast? with
    | none =>
      have hA' : A' = [] := List.getLast?_eq_none_iff.mp hA
      subst hA'
      rw [hA] at this
      simp [List.getLast?_singleton]
      exact this
    | some y =>
      rw [hA] at this
      have hcons : (a :: A').getLast? = some y := by
        cases A' with
        | nil => simp at hA
        | cons b bs => rw [List.getLast?_cons_cons]; exact hA
      rw [hcons]
      exact this

theorem reach_of_dll (s : Sched) :
    ∀ (L : List ℕ) (p cur : Option ℕ) (fuel : ℕ),
      dllB s p cur L = true → L.length ≤ fuel → reachAux s cur fuel = L := by
  intro L
  induction L with
  | nil =>
    intro p cur fuel h _
    have hc : cur = none := by simpa [dllB] using h
    subst hc
    cases fuel <;> rfl
  | cons x rest ih =>
    intro p cur fuel h hlen
    obtain ⟨h1, _, h3⟩ := (dllB_cons s p cur x rest).mp h
    subst h1
    cases fuel with
    | zero => simp at hlen
    | succ fuel =>
      rw [show reachAux s (some x) (fuel + 1) =
            x :: reachAux s ((getN s x).next) fuel from rfl]
      rw [ih _ _ fuel h3 (by simpa using hlen)]

theorem nodup_length_le (L : List ℕ) (n : ℕ) (hnd : L.Nodup)
    (hb : ∀ x ∈ L, x < n) : L.length ≤ n := by
  have h1 : L.toFinset.card = L.length := List.toFinset_card_of_nodup hnd
  have h2 : L.toFinset ⊆ Finset.range n := by
    intro x hx
    simp only [List.mem_toFinset] at hx
    exact Finset.mem_range.mpr (hb x hx)
  have h3 := Finset.card_le_card h2
  rw [h1, Finset.card_range] at h3
  exact h3

/-- A well-formed scheduler's traversal enumerates exactly the represented
list. -/
theorem wfS_activeIds (s : Sched) (L : List ℕ) (h : wfS s L) :
    activeIds s = L := by
  obtain ⟨hd, _, hnd, hb⟩ := h
  exact reach_of_dll s L none s.head (s.arena.length + 1) hd
    (le_trans (nodup_length_le L s.arena.length hnd hb) (Nat.le_succ _))

/-- `dllB` reads only the active-slot links of the listed nodes. -/
theorem dllB_congr_links (s s' : Sched) :
    ∀ (l : List ℕ),
      (∀ x ∈ l, (getN s' x).prev = (getN s x).prev ∧
        (getN s' x).next = (getN s x).next) →
      ∀ p cur, dllB s' p cur l = dllB s p cur l := by
  intro l
  induction l with
  | nil => intro _ p cur; rfl
  | cons x rest ih =>
    intro h p cur
    have hx := h x (List.mem_cons_self _ _)
    show (cur == some x && (getN s' x).prev == p &&
        dllB s' (some x) ((getN s' x).next) rest) = _
    rw [hx.1, hx.2, ih (fun y hy => h y (List.mem_cons_of_mem _ hy))]
    rfl

/-- A state change that keeps head, tail, arena size and the listed
nodes' links keeps the representation. -/
theorem wfS_of_links (s s' : Sched) (L : List ℕ) (h : wfS s L)
    (hh : s'.head = s.head) (ht : s'.tail = s.tail)
    (hlen : s'.arena.length = s.arena.length)
    (hg : ∀ x ∈ L, (getN s' x).prev = (getN s x).prev ∧
      (getN s' x).next = (getN s x).next) : wfS s' L := by
  obtain ⟨hd, htl, hnd, hb⟩ := h
  refine ⟨?_, ?_, hnd, ?_⟩
  · rw [hh, dllB_congr_links s s' L hg]
    exact hd
  · rw [ht, htl]
  · intro x hx
    rw [hlen]
    exact hb x hx

/-- Splicing a node out (the `removedAt` record transformation) turns a
representation of `A ++ i :: B` into one of `A ++ B`. -/
theorem dll_erase_aux (s s' : Sched) (i : ℕ)
    (hg : ∀ x, x < s.arena.length → getN s' x = removedAt s i x) :
    ∀ (A B : List ℕ) (p cur : Option ℕ),
      dllB s p cur (A ++ i :: B) = true →
      (A ++ i :: B).Nodup →
      (∀ x ∈ A ++ i :: B, x < s.arena.length) →
      (∀ y, p = some y → y ∉ A ++ i :: B) →
      dllB s' p (if A.isEmpty then (getN s i).next else cur) (A ++ B) = true := by
  intro A
  induction A with
  | nil =>
    intro B p cur hd hnd hb hp
    simp only [List.nil_append] at hd hnd hb hp ⊢
    simp only [List.isEmpty_nil, if_true]
    obtain ⟨hcur, hiprev, hchain⟩ := (dllB_cons s p cur i B).mp hd
    have hpnb : ∀ x, x ∈ i :: B → (getN s i).prev ≠ some x := by
      intro x hx hcon
      rw [hiprev] at hcon
      exact hp x hcon hx
    cases B with
    | nil =>
      have hnone : (getN s i).next = none := dll_head s _ _ _ hchain
      rw [hnone]
      simp [dllB]
    | cons b B' =>
      obtain ⟨hnextb, hbprev, hchain'⟩ :=
        (dllB_cons s (some i) ((getN s i).next) b B').mp hchain
      have hblen : b < s.arena.length := hb b (by simp)
      have hbB' : b ∉ B' := by
        have := (List.nodup_cons.mp ((List.nodup_cons.mp hnd).2)).1
        exact this
      have hb_rec : getN s' b = { getN s b with prev := p } := by
        rw [hg b hblen, removedAt_of_next s i b hnextb (hpnb b (by simp)),
          hiprev]
      refine (dllB_cons s' p ((getN s i).next) b B').mpr ⟨hnextb, ?_, ?_⟩
      · rw [hb_rec]
      · have hcongr : ∀ x ∈ B', getN s' x = getN s x := by
          intro x hx
          rw [hg x (hb x (by simp [hx]))]
          exact removedAt_other s i x (hpnb x (by simp [hx]))
            (by rw [hnextb]; intro hc; cases hc; exact hbB' hx)
        rw [hb_rec]
        show dllB s' (some b) ((getN s b).next) B' = true
        rw [dllB_congr s s' B' hcongr (some b) ((getN s b).next)]
        exact hchain'
  | cons a A' ih =>
    intro B p cur hd hnd hb hp
    rw [List.cons_append] at hd hnd hb hp
    obtain ⟨hcur, haprev, hchain⟩ :=
      (dllB_cons s p cur a (A' ++ i :: B)).mp hd
    have halen : a < s.arena.length := hb a (List.mem_cons_self _ _)
    have hai : a ∉ A' ++ i :: B := (List.nodup_cons.mp hnd).1
    have hnext_i : (getN s i).next = B.head? :=
      dll_next s i B A' (some a) ((getN s a).next) hchain
    have hprev_i := dll_prev s i B A' (some a) ((getN s a).next) hchain
    have hnia : (getN s i).next ≠ some a := by
      rw [hnext_i]
      intro hc
      cases B with
      | nil => cases hc
      | cons b B' =>
        cases hc
        exact hai (by simp)
    have ha_rec : getN s' a =
        (if A'.isEmpty then { getN s a with next := (getN s i).next }
         else getN s a) := by
      rw [hg a halen]
      cases A' with
      | nil =>
        simp only [List.isEmpty_nil, if_true]
        have hpia : (getN s i).prev = some a := by
          simpa using hprev_i
        exact removedAt_of_prev s i a hpia hnia
      | cons a'' A'' =>
        simp only [List.isEmpty_cons, if_false]
        have hpia : (getN s i).prev ≠ some a := by
          rw [hprev_i]
          cases hA : (a'' :: A'').getLast? with
          | none => simp at hA
          | some y =>
            have hyA : y ∈ a'' :: A'' := List.mem_of_getLast?_eq_some hA
            intro hc
            cases hc
            rcases List.mem_cons.mp hyA with h1 | h1
            · exact hai (h1 ▸ List.mem_cons_self _ _)
            · exact hai (List.mem_cons_of_mem _ (List.mem_append_left _ h1))
        exact removedAt_other s i a hpia hnia
    refine (dllB_cons s' p cur a (A' ++ B)).mpr ⟨hcur, ?_, ?_⟩
    · rw [ha_rec]
      cases A' <;> simp [haprev]
    · have htail := ih B (some a) ((getN s a).next) hchain
        ((List.nodup_cons.mp hnd).2)
        (fun x hx => hb x (List.mem_cons_of_mem _ hx))
        (by
          intro y hy
          cases hy
          exact hai)
      rw [ha_rec]
      cases A' with
      | nil => simpa using htail
      | cons a'' A'' => simpa using htail

/-- `_remove` on the occupant `i` of a well-formed active-slot list
`A ++ i :: B` leaves a well-formed list `A ++ B`. -/
theorem wf_remove (s : Sched) (i : ℕ) (A B : List ℕ)
    (hwf : wfS s (A ++ i :: B)) :
    wfS (removeNode s i).1 (A ++ B) := by
  obtain ⟨hd, ht, hnd, hb⟩ := hwf
  have hmid : (i :: (A ++ B)).Nodup := by
    rw [show i :: (A ++ B) = i :: A ++ B from rfl]
    exact List.nodup_middle.mp hnd
  have hiAB : i ∉ A ++ B := (List.nodup_cons.mp hmid).1
  have hndAB : (A ++ B).Nodup := (List.nodup_cons.mp hmid).2
  have hi0 : i < s.arena.length := hb i (by simp)
  have hprev := dll_prev s i B A none s.head hd
  have hnext := dll_next s i B A none s.head hd
  have hpi : (getN s i).prev ≠ some i := by
    rw [hprev]
    cases hA : A.getLast? with
    | none => simp
    | some y =>
      have hy : y ∈ A := List.mem_of_getLast?_eq_some hA
      intro hc
      cases hc
      exact hiAB (List.mem_append_left _ hy)
  have hni : (getN s i).next ≠ some i := by
    rw [hnext]
    cases B with
    | nil => simp
    | cons b B' =>
      intro hc
      cases hc
      exact hiAB (List.mem_append_right _ (List.mem_cons_self _ _))
  obtain ⟨chh, cht, _, _, _, clen, cg, _⟩ := removeNode_spec s i hi0 hpi hni
  refine ⟨?_, ?_, hndAB, ?_⟩
  · have hmain := dll_erase_aux s (removeNode s i).1 i cg A B none s.head hd
      hnd hb (by intro y hy; cases hy)
    have hhead : (removeNode s i).1.head =
        (if A.isEmpty then (getN s i).next else s.head) := by
      rw [chh]
      cases A with
      | nil =>
        have hpn : (getN s i).prev = none := by simpa using hprev
        rw [hpn]
        simp
      | cons a A' =>
        have hpn : (getN s i).prev ≠ none := by
          rw [hprev]
          cases hA : (a :: A').getLast? with
          | none => exact absurd (List.getLast?_eq_none_iff.mp hA) (by simp)
          | some y => simp
        have hha : s.head = some a := by
          have := dll_head s none s.head _ hd
          simpa using this
        have hhai : s.head ≠ some i := by
          rw [hha]
          intro hc
          cases hc
          exact (List.nodup_cons.mp (by
            rw [show (i :: A') ++ i :: B = i :: (A' ++ i :: B) from rfl] at hnd
            exact hnd)).1 (List.mem_append_right _ (List.mem_cons_self _ _))
        rw [if_neg hpn, if_neg hhai]
        simp
    rw [hhead]
    exact hmain
  · rw [cht]
    cases B with
    | nil =>
      have hti : s.tail = some i := by
        rw [ht, List.getLast?_append]
        rfl
      rw [if_pos hti, hprev, List.append_nil]
      cases hA : A.getLast? <;> rfl
    | cons b B' =>
      obtain ⟨z, hz1, hz2⟩ : ∃ z, (b :: B').getLast? = some z ∧ z ∈ b :: B' := by
        cases hzz : (b :: B').getLast? with
        | none => exact absurd (List.getLast?_eq_none_iff.mp hzz) (by simp)
        | some z => exact ⟨z, rfl, List.mem_of_getLast?_eq_some hzz⟩
      have hst : s.tail = some z := by
        rw [ht, List.getLast?_append, List.getLast?_cons_cons, hz1]
        rfl
      have hzi : z ≠ i := by
        intro hc
        subst hc
        exact hiAB (List.mem_append_right _ hz2)
      have hti : s.tail ≠ some i := by
        rw [hst]
        intro hc
        cases hc
        exact hzi rfl
      rw [if_neg hti, hst, List.getLast?_append, hz1]
      rfl
  · intro x hx
    rw [clen]
    apply hb
    rcases List.mem_append.mp hx with h | h
    · exact List.mem_append_left _ h
    · exact List.mem_append_right _ (List.mem_cons_of_mem _ h)

/-- Substituting the successor `j` for the occupant `i` (the `replacedAt`
record transformation) turns a representation of `A ++ i :: B` into one of
`A ++ j :: B`. -/
theorem dll_subst_aux (s s' : Sched) (i j : ℕ)
    (hg : ∀ x, x < s.arena.length → getN s' x = replacedAt s i j x)
    (hj : j < s.arena.length) :
    ∀ (A B : List ℕ) (p cur : Option ℕ),
      dllB s p cur (A ++ i :: B) = true →
      (A ++ i :: B).Nodup →
      (∀ x ∈ A ++ i :: B, x < s.arena.length) →
      (∀ y, p = some y → y ∉ A ++ i :: B ∧ y ≠ j) →
      j ∉ A ++ i :: B →
      dllB s' p (if A.isEmpty then some j else cur) (A ++ j :: B) = true := by
  intro A
  induction A with
  | nil =>
    intro B p cur hd hnd hb hp hjL
    simp only [List.nil_append] at hd hnd hb hp hjL ⊢
    simp only [List.isEmpty_nil, if_true]
    obtain ⟨hcur, hiprev, hchain⟩ := (dllB_cons s p cur i B).mp hd
    have hpnb : ∀ x, x ∈ i :: B → (getN s i).prev ≠ some x := by
      intro x hx hcon
      rw [hiprev] at hcon
      exact (hp x hcon).1 hx
    have hpj : (getN s i).prev ≠ some j := by
      intro hcon
      rw [hiprev] at hcon
      exact (hp j hcon).2 rfl
    have hnext_i : (getN s i).next = B.head? := dll_head s _ _ _ hchain
    have hnj : (getN s i).next ≠ some j := by
      rw [hnext_i]
      cases B with
      | nil => simp
      | cons b B' =>
        intro hc
        cases hc
        exact hjL (List.mem_cons_of_mem _ (List.mem_cons_self _ _))
    have hj_rec : getN s' j =
        { getN s j with prev := (getN s i).prev, next := (getN s i).next } := by
      rw [hg j hj]
      exact replacedAt_at_j s i j hpj hnj
    refine (dllB_cons s' p (some j) j B).mpr ⟨rfl, ?_, ?_⟩
    · rw [hj_rec]
      exact hiprev
    · rw [hj_rec]
      show dllB s' (some j) ((getN s i).next) B = true
      cases B with
      | nil =>
        have hnone : (getN s i).next = none := by simpa using hnext_i
        rw [hnone]
        simp [dllB]
      | cons b B' =>
        obtain ⟨hnextb, hbprev, hchain'⟩ :=
          (dllB_cons s (some i) ((getN s i).next) b B').mp hchain
        have hblen : b < s.arena.length := hb b (by simp)
        have hbB' : b ∉ B' :=
          (List.nodup_cons.mp ((List.nodup_cons.mp hnd).2)).1
        have hjb : j ≠ b := by
          intro hc
          subst hc
          exact hjL (by simp)
        have hb_rec : getN s' b = { getN s b with prev := some j } := by
          rw [hg b hblen]
          exact replacedAt_of_next s i j b hnextb (hpnb b (by simp)) hjb
        refine (dllB_cons s' (some j) ((getN s i).next) b B').mpr
          ⟨hnextb, ?_, ?_⟩
        · rw [hb_rec]
        · have hcongr : ∀ x ∈ B', getN s' x = getN s x := by
            intro x hx
            rw [hg x (hb x (by simp [hx]))]
            refine replacedAt_other s i j x ?_ (hpnb x (by simp [hx])) ?_
            · intro hc
              subst hc
              exact hjL (by simp [hx])
            · rw [hnextb]
              intro hc
              cases hc
              exact hbB' hx
          rw [hb_rec]
          show dllB s' (some b) ((getN s b).next) B' = true
          rw [dllB_congr s s' B' hcongr (some b) ((getN s b).next)]
          exact hchain'
  | cons a A' ih =>
    intro B p cur hd hnd hb hp hjL
    rw [List.cons_append] at hd hnd hb hp hjL
    obtain ⟨hcur, haprev, hchain⟩ :=
      (dllB_cons s p cur a (A' ++ i :: B)).mp hd
    have halen : a < s.arena.length := hb a (List.mem_cons_self _ _)
    have hai : a ∉ A' ++ i :: B := (List.nodup_cons.mp hnd).1
    have hja : j ≠ a := by
      intro hc
      subst hc
      exact hjL (List.mem_cons_self _ _)
    have hnext_i : (getN s i).next = B.head? :=
      dll_next s i B A' (some a) ((getN s a).next) hchain
    have hprev_i := dll_prev s i B A' (some a) ((getN s a).next) hchain
    have hnia : (getN s i).next ≠ some a := by
      rw [hnext_i]
      intro hc
      cases B with
      | nil => cases hc
      | cons b B' =>
        cases hc
        exact hai (by simp)
    have ha_rec : getN s' a =
        (if A'.isEmpty then { getN s a with next := some j }
         else getN s a) := by
      rw [hg a halen]
      cases A' with
      | nil =>
        simp only [List.isEmpty_nil, if_true]
        have hpia : (getN s i).prev = some a := by
          simpa using hprev_i
        exact replacedAt_of_prev s i j a hpia hnia hja
      | cons a'' A'' =>
        simp only [List.isEmpty_cons, if_false]
        have hpia : (getN s i).prev ≠ some a := by
          rw [hprev_i]
          cases hA : (a'' :: A'').getLast? with
          | none => simp at hA
          | some y =>
            have hyA : y ∈ a'' :: A'' := List.mem_of_getLast?_eq_some hA
            intro hc
            cases hc
            rcases List.mem_cons.mp hyA with h1 | h1
            · exact hai (h1 ▸ List.mem_cons_self _ _)
            · exact hai (List.mem_cons_of_mem _ (List.mem_append_left _ h1))
        exact replacedAt_other s i j a hja hpia hnia
    refine (dllB_cons s' p cur a (A' ++ j :: B)).mpr ⟨hcur, ?_, ?_⟩
    · rw [ha_rec]
      cases A' <;> simp [haprev]
    · have htail := ih B (some a) ((getN s a).next) hchain
        ((List.nodup_cons.mp hnd).2)
        (fun x hx => hb x (List.mem_cons_of_mem _ hx))
        (by
          intro y hy
          cases hy
          exact ⟨hai, fun hc => hja hc.symm⟩)
        (fun hc => hjL (List.mem_cons_of_mem _ hc))
      rw [ha_rec]
      cases A' with
      | nil => simpa using htail
      | cons a'' A'' => simpa using htail

/-- `_replace` of the occupant `i` by a fresh node `j` in a well-formed
active-slot list `A ++ i :: B` leaves a well-formed list `A ++ j :: B`. -/
theorem wf_replace (s : Sched) (i j : ℕ) (A B : List ℕ)
    (hwf : wfS s (A ++ i :: B)) (hj : j < s.arena.length)
    (hjL : j ∉ A ++ i :: B) :
    wfS (replaceNode s i j).1 (A ++ j :: B) := by
  obtain ⟨hd, ht, hnd, hb⟩ := hwf
  have hmid : (i :: (A ++ B)).Nodup := by
    rw [show i :: (A ++ B) = i :: A ++ B from rfl]
    exact List.nodup_middle.mp hnd
  have hiAB : i ∉ A ++ B := (List.nodup_cons.mp hmid).1
  have hndAB : (A ++ B).Nodup := (List.nodup_cons.mp hmid).2
  have hi0 : i < s.arena.length := hb i (by simp)
  have hji : j ≠ i := by
    intro hc
    subst hc
    exact hjL (by simp)
  have hprev := dll_prev s i B A none s.head hd
  have hnext := dll_next s i B A none s.head hd
  have hprev_form : ∀ y, (getN s i).prev = some y → y ∈ A := by
    intro y hy
    rw [hprev] at hy
    cases hA : A.getLast? with
    | none => rw [hA] at hy; cases hy
    | some w =>
      rw [hA] at hy
      cases hy
      exact List.mem_of_getLast?_eq_some hA
  have hpi : (getN s i).prev ≠ some i := by
    intro hc
    exact hiAB (List.mem_append_left _ (hprev_form i hc))
  have hpj : (getN s i).prev ≠ some j := by
    intro hc
    exact hjL (List.mem_append_left _ (hprev_form j hc))
  have hnext_form : ∀ y, (getN s i).next = some y → y ∈ B := by
    intro y hy
    rw [hnext] at hy
    cases B with
    | nil => cases hy
    | cons b B' =>
      cases hy
      exact List.mem_cons_self _ _
  have hni : (getN s i).next ≠ some i := by
    intro hc
    exact hiAB (List.mem_append_right _ (hnext_form i hc))
  have hnj : (getN s i).next ≠ some j := by
    intro hc
    exact hjL (List.mem_append_right _ (List.mem_cons_of_mem _ (hnext_form j hc)))
  obtain ⟨chh, cht, _, _, _, clen, cg, _⟩ :=
    replaceNode_spec s i j hi0 hji hpi hni hpj hnj
  refine ⟨?_, ?_, ?_, ?_⟩
  · have hmain := dll_subst_aux s (replaceNode s i j).1 i j cg hj A B none
      s.head hd hnd hb (by intro y hy; cases hy) hjL
    have hhead : (replaceNode s i j).1.head =
        (if A.isEmpty then some j else s.head) := by
      rw [chh]
      cases A with
      | nil =>
        have hhi : s.head = some i := by
          have := dll_head s none s.head _ hd
          simpa using this
        rw [if_pos hhi]
        simp
      | cons a A' =>
        have hha : s.head = some a := by
          have := dll_head s none s.head _ hd
          simpa using this
        have hhai : s.head ≠ some i := by
          rw [hha]
          intro hc
          cases hc
          exact (List.nodup_cons.mp (by
            rw [show (i :: A') ++ i :: B = i :: (A' ++ i :: B) from rfl] at hnd
            exact hnd)).1 (List.mem_append_right _ (List.mem_cons_self _ _))
        rw [if_neg hhai]
        simp
    rw [hhead]
    exact hmain
  · rw [cht]
    cases B with
    | nil =>
      have hti : s.tail = some i := by
        rw [ht, List.getLast?_append]
        rfl
      rw [if_pos hti, List.getLast?_append]
      rfl
    | cons b B' =>
      obtain ⟨z, hz1, hz2⟩ : ∃ z, (b :: B').getLast? = some z ∧ z ∈ b :: B' := by
        cases hzz : (b :: B').getLast? with
        | none => exact absurd (List.getLast?_eq_none_iff.mp hzz) (by simp)
        | some z => exact ⟨z, rfl, List.mem_of_getLast?_eq_some hzz⟩
      have hst : s.tail = some z := by
        rw [ht, List.getLast?_append, List.getLast?_cons_cons, hz1]
        rfl
      have hzi : z ≠ i := by
        intro hc
        subst hc
        exact hiAB (List.mem_append_right _ hz2)
      have hti : s.tail ≠ some i := by
        rw [hst]
        intro hc
        cases hc
        exact hzi rfl
      rw [if_neg hti, hst, List.getLast?_append, List.getLast?_cons_cons, hz1]
      rfl
  · refine List.nodup_middle.mpr ?_
    exact List.nodup_cons.mpr ⟨fun hc => hjL (by
      rcases List.mem_append.mp hc with h | h
      · exact List.mem_append_left _ h
      · exact List.mem_append_right _ (List.mem_cons_of_mem _ h)), hndAB⟩
  · intro x hx
    rw [clen]
    rcases List.mem_append.mp hx with h | h
    · exact hb x (List.mem_append_left _ h)
    · rcases List.mem_cons.mp h with h1 | h1
      · subst h1
        exact hj
      · exact hb x (List.mem_append_right _ (List.mem_cons_of_mem _ h1))

theorem sameFlags_refl (n : NodeData) : sameFlags n n :=
  ⟨rfl, rfl, rfl, rfl, rfl, rfl, rfl, rfl, rfl, rfl⟩

theorem sameFlags_trans {a b c : NodeData} (h1 : sameFlags a b)
    (h2 : sameFlags b c) : sameFlags a c := by
  obtain ⟨e1, s1, h1', c1, f1, t1, d1, st1, stt1, cm1⟩ := h1
  obtain ⟨e2, s2, h2', c2, f2, t2, d2, st2, stt2, cm2⟩ := h2
  exact ⟨e1.trans e2, s1.trans s2, h1'.trans h2', c1.trans c2, f1.trans f2,
    t1.trans t2, d1.trans d2, st1.trans st2, stt1.trans stt2, cm1.trans cm2⟩

theorem getN_setN_cases (t : Sched) (y x : ℕ) (m : NodeData) :
    getN (setN t y m) x =
      (if y = x ∧ x < t.arena.length then m else getN t x) := by
  by_cases hyx : y = x
  · subst hyx
    by_cases hlt : y < t.arena.length
    · rw [getN_setN_self _ _ _ hlt]
      simp [hlt]
    · have harena : (setN t y m).arena = t.arena :=
        List.set_eq_of_length_le (Nat.le_of_not_lt hlt)
      simp only [hlt, and_false, if_false]
      show (setN t y m).arena.getD y default = t.arena.getD y default
      rw [harena]
  · rw [getN_setN_ne _ _ _ _ hyx]
    simp [hyx]

theorem getN_setN_sameFlags (t : Sched) (y x : ℕ) (m : NodeData)
    (h : sameFlags m (getN t y)) :
    sameFlags (getN (setN t y m) x) (getN t x) := by
  rw [getN_setN_cases]
  by_cases hc : y = x ∧ x < t.arena.length
  · rw [if_pos hc]
    obtain ⟨h1, _⟩ := hc
    subst h1
    exact h
  · rw [if_neg hc]
    exact sameFlags_refl _

theorem removeNode_sameFlags (t : Sched) (c x : ℕ) :
    sameFlags (getN (removeNode t c).1 x) (getN t x) := by
  have h1 : ∀ (u : Sched), sameFlags (getN (removeStep1 u c) x) (getN u x) := by
    intro u
    unfold removeStep1
    cases (getN u c).prev with
    | none => exact sameFlags_refl _
    | some p =>
      exact getN_setN_sameFlags u p x _
        ⟨rfl, rfl, rfl, rfl, rfl, rfl, rfl, rfl, rfl, rfl⟩
  have h2 : ∀ (u : Sched), sameFlags (getN (removeStep2 u c) x) (getN u x) := by
    intro u
    unfold removeStep2
    cases (getN u c).next with
    | none => exact sameFlags_refl _
    | some q =>
      exact getN_setN_sameFlags u q x _
        ⟨rfl, rfl, rfl, rfl, rfl, rfl, rfl, rfl, rfl, rfl⟩
  exact sameFlags_trans (sameFlags_trans (sameFlags_refl _)
    (h2 (removeStep1 t c))) (h1 t)

theorem replaceNode_sameFlags (t : Sched) (c j x : ℕ) :
    sameFlags (getN (replaceNode t c j).1 x) (getN t x) := by
  have h1 : ∀ (u : Sched), sameFlags (getN (replaceStep1 u c j) x) (getN u x) := by
    intro u
    exact getN_setN_sameFlags u j x _
      ⟨rfl, rfl, rfl, rfl, rfl, rfl, rfl, rfl, rfl, rfl⟩
  have h3 : ∀ (u : Sched), sameFlags (getN (replaceStep3 u c j) x) (getN u x) := by
    intro u
    unfold replaceStep3
    cases (getN u c).prev with
    | none => exact sameFlags_refl _
    | some p =>
      exact getN_setN_sameFlags u p x _
        ⟨rfl, rfl, rfl, rfl, rfl, rfl, rfl, rfl, rfl, rfl⟩
  have h4 : ∀ (u : Sched), sameFlags (getN (replaceStep4 u c j) x) (getN u x) := by
    intro u
    unfold replaceStep4
    cases (getN u c).next with
    | none => exact sameFlags_refl _
    | some q =>
      exact getN_setN_sameFlags u q x _
        ⟨rfl, rfl, rfl, rfl, rfl, rfl, rfl, rfl, rfl, rfl⟩
  exact sameFlags_trans (sameFlags_trans (h4 _) (h3 _)) (h1 t)

/-- `_complete` touches no flag of any node other than setting the
completing node's own completed bit: error, static successor,
completion-callback presence and chain id of every record are preserved,
and the completed bit of every other record is preserved. -/
theorem completeNode_preserves (t : Sched) (c x : ℕ) :
    (getN (completeNode t c).1 x).error = (getN t x).error ∧
    (getN (completeNode t c).1 x).sub = (getN t x).sub ∧
    (getN (completeNode t c).1 x).hasOnCompleted = (getN t x).hasOnCompleted ∧
    (getN (completeNode t c).1 x).chain = (getN t x).chain ∧
    (x ≠ c →
      (getN (completeNode t c).1 x).completed = (getN t x).completed) := by
  unfold completeNode
  by_cases hcc : (getN t c).completed = true
  · rw [if_pos hcc]
    exact ⟨rfl, rfl, rfl, rfl, fun _ => rfl⟩
  · rw [if_neg hcc]
    dsimp only
    have hs1all : ∀ y,
        (getN (setN t c { getN t c with completed := true }) y).error = (getN t y).error ∧
        (getN (setN t c { getN t c with completed := true }) y).sub = (getN t y).sub ∧
        (getN (setN t c { getN t c with completed := true }) y).hasOnCompleted = (getN t y).hasOnCompleted ∧
        (getN (setN t c { getN t c with completed := true }) y).chain = (getN t y).chain ∧
        (y ≠ c →
          (getN (setN t c { getN t c with completed := true }) y).completed = (getN t y).completed) := by
      intro y
      rw [getN_setN_cases]
      by_cases hcy : c = y ∧ y < t.arena.length
      · rw [if_pos hcy]
        obtain ⟨h1, _⟩ := hcy
        subst h1
        exact ⟨rfl, rfl, rfl, rfl, fun hyc => absurd rfl hyc⟩
      · rw [if_neg hcy]
        exact ⟨rfl, rfl, rfl, rfl, fun _ => rfl⟩
    have ha := hs1all x
    cases hsub : (getN (setN t c { getN t c with completed := true }) c).sub with
    | some j =>
      cases herr : (getN (setN t c { getN t c with completed := true }) c).error with
      | false =>
        have hr := replaceNode_sameFlags
          (setN t c { getN t c with completed := true }) c j x
        exact ⟨hr.1.trans ha.1, hr.2.1.trans ha.2.1, hr.2.2.1.trans ha.2.2.1,
          hr.2.2.2.1.trans ha.2.2.2.1,
          fun hxc => (hr.2.2.2.2.2.2.2.2.2).trans (ha.2.2.2.2 hxc)⟩
      | true =>
        have hr := removeNode_sameFlags
          (setN t c { getN t c with completed := true }) c x
        exact ⟨hr.1.trans ha.1, hr.2.1.trans ha.2.1, hr.2.2.1.trans ha.2.2.1,
          hr.2.2.2.1.trans ha.2.2.2.1,
          fun hxc => (hr.2.2.2.2.2.2.2.2.2).trans (ha.2.2.2.2 hxc)⟩
    | none =>
      have hr := removeNode_sameFlags
        (setN t c { getN t c with completed := true }) c x
      exact ⟨hr.1.trans ha.1, hr.2.1.trans ha.2.1, hr.2.2.1.trans ha.2.2.1,
        hr.2.2.2.1.trans ha.2.2.2.1,
        fun hxc => (hr.2.2.2.2.2.2.2.2.2).trans (ha.2.2.2.2 hxc)⟩

theorem removeNode_len (s : Sched) (i : ℕ) :
    (removeNode s i).1.arena.length = s.arena.length := by
  show (removeStep4 (removeStep3 (removeStep2 (removeStep1 s i) i) i) i).arena.length = _
  have h2 : ∀ u : Sched, (removeStep2 u i).arena.length = u.arena.length := by
    intro u
    unfold removeStep2
    cases (getN u i).next with
    | none => rfl
    | some q => simp
  have h1 : ∀ u : Sched, (removeStep1 u i).arena.length = u.arena.length := by
    intro u
    unfold removeStep1
    cases (getN u i).prev with
    | none => rfl
    | some p => simp
  show (removeStep2 (removeStep1 s i) i).arena.length = _
  rw [h2, h1]

theorem replaceNode_len (s : Sched) (i j : ℕ) :
    (replaceNode s i j).1.arena.length = s.arena.length := by
  have h4 : ∀ u : Sched, (replaceStep4 u i j).arena.length = u.arena.length := by
    intro u
    unfold replaceStep4
    cases (getN u i).next with
    | none => rfl
    | some q => simp
  have h3 : ∀ u : Sched, (replaceStep3 u i j).arena.length = u.arena.length := by
    intro u
    unfold replaceStep3
    cases (getN u i).prev with
    | none => rfl
    | some p => simp
  show (replaceStep4 (replaceStep3 (replaceStep2 (replaceStep1 s i j) i j) i j) i j).arena.length = _
  rw [h4, h3]
  show (replaceStep1 s i j).arena.length = _
  simp [replaceStep1]

theorem completeNode_len (s : Sched) (i : ℕ) :
    (completeNode s i).1.arena.length = s.arena.length := by
  unfold completeNode
  by_cases hcc : (getN s i).completed = true
  · rw [if_pos hcc]
  · rw [if_neg hcc]
    dsimp only
    cases (getN (setN s i { getN s i with completed := true }) i).sub with
    | some j =>
      cases (getN (setN s i { getN s i with completed := true }) i).error with
      | false =>
        show (replaceNode (setN s i { getN s i with completed := true }) i j).1.arena.length = _
        rw [replaceNode_len]
        simp
      | true =>
        show (removeNode (setN s i { getN s i with completed := true }) i).1.arena.length = _
        rw [removeNode_len]
        simp
    | none =>
      show (removeNode (setN s i { getN s i with completed := true }) i).1.arena.length = _
      rw [removeNode_len]
      simp

/-- `_complete` behind the guard, with the freshly written record read
back: the promotion/retirement decision is driven by the original node's
static successor and error flag. -/
theorem completeNode_reduce (t : Sched) (c : ℕ) (hc : c < t.arena.length)
    (hnc : ¬(getN t c).completed = true) :
    completeNode t c =
      (match (getN t c).sub with
       | some j =>
         if !(getN t c).error then
           replaceNode (setN t c { getN t c with completed := true }) c j
         else removeNode (setN t c { getN t c with completed := true }) c
       | none => removeNode (setN t c { getN t c with completed := true }) c) := by
  have hg : getN (setN t c { getN t c with completed := true }) c =
      { getN t c with completed := true } := getN_setN_self t c _ hc
  unfold completeNode
  rw [if_neg hnc]
  dsimp only
  rw [hg]

/-- First-time `_complete` on an in-range node leaves its completed bit
set (and a repeat call is a no-op on an already-set bit). -/
theorem completeNode_completed_self (t : Sched) (c : ℕ)
    (hc : c < t.arena.length) :
    (getN (completeNode t c).1 c).completed = true := by
  by_cases hcc : (getN t c).completed = true
  · unfold completeNode
    rw [if_pos hcc]
    exact hcc
  · unfold completeNode
    rw [if_neg hcc]
    dsimp only
    have hs1 : (getN (setN t c { getN t c with completed := true }) c).completed = true := by
      rw [getN_setN_self t c _ hc]
    cases hsub : (getN (setN t c { getN t c with completed := true }) c).sub with
    | some j =>
      cases herr : (getN (setN t c { getN t c with completed := true }) c).error with
      | false =>
        have hr := replaceNode_sameFlags
          (setN t c { getN t c with completed := true }) c j c
        exact (hr.2.2.2.2.2.2.2.2.2).trans hs1
      | true =>
        have hr := removeNode_sameFlags
          (setN t c { getN t c with completed := true }) c c
        exact (hr.2.2.2.2.2.2.2.2.2).trans hs1
    | none =>
      have hr := removeNode_sameFlags
        (setN t c { getN t c with completed := true }) c c
      exact (hr.2.2.2.2.2.2.2.2.2).trans hs1

/-- `_complete` never clears a completed bit. -/
theorem completeNode_completed_mono (t : Sched) (c x : ℕ)
    (hx : x < t.arena.length) (h : (getN t x).completed = true) :
    (getN (completeNode t c).1 x).completed = true := by
  by_cases hxc : x = c
  · subst hxc
    exact completeNode_completed_self t x hx
  · rw [(completeNode_preserves t c x).2.2.2.2 hxc]
    exact h

theorem completeNodes_len (cs : List ℕ) : ∀ (s : Sched),
    (completeNodes s cs).1.arena.length = s.arena.length := by
  induction cs with
  | nil => intro s; rfl
  | cons c rest ih =>
    intro s
    show (completeNodes (completeNode s c).1 rest).1.arena.length = _
    rw [ih, completeNode_len]

/-- `_completeNodes` touches no flag of any node other than the completed
bits of the nodes it is applied to. -/
theorem completeNodes_preserves (cs : List ℕ) : ∀ (s : Sched) (x : ℕ),
    (getN (completeNodes s cs).1 x).error = (getN s x).error ∧
    (getN (completeNodes s cs).1 x).sub = (getN s x).sub ∧
    (getN (completeNodes s cs).1 x).hasOnCompleted = (getN s x).hasOnCompleted ∧
    (getN (completeNodes s cs).1 x).chain = (getN s x).chain ∧
    (x ∉ cs →
      (getN (completeNodes s cs).1 x).completed = (getN s x).completed) := by
  induction cs with
  | nil => intro s x; exact ⟨rfl, rfl, rfl, rfl, fun _ => rfl⟩
  | cons c rest ih =>
    intro s x
    have h1 := completeNode_preserves s c x
    have h2 := ih (completeNode s c).1 x
    refine ⟨h2.1.trans h1.1, h2.2.1.trans h1.2.1, h2.2.2.1.trans h1.2.2.1,
      h2.2.2.2.1.trans h1.2.2.2.1, fun hx => ?_⟩
    have hxc : x ≠ c := fun h => hx (h ▸ List.mem_cons_self _ _)
    have hxr : x ∉ rest := fun h => hx (List.mem_cons_of_mem _ h)
    exact (h2.2.2.2.2 hxr).trans (h1.2.2.2.2 hxc)

theorem completeNodes_completed_mono (cs : List ℕ) : ∀ (s : Sched) (x : ℕ),
    x < s.arena.length → (getN s x).completed = true →
    (getN (completeNodes s cs).1 x).completed = true := by
  induction cs with
  | nil => intro s x _ h; exact h
  | cons c rest ih =>
    intro s x hx h
    exact ih (completeNode s c).1 x (by rw [completeNode_len]; exact hx)
      (completeNode_completed_mono s c x hx h)

/-- Every node handed to `_completeNodes` ends the call with its completed
bit set. -/
theorem completeNodes_completed_all (cs : List ℕ) : ∀ (s : Sched),
    (∀ c ∈ cs, c < s.arena.length) →
    ∀ c ∈ cs, (getN (completeNodes s cs).1 c).completed = true := by
  induction cs with
  | nil => intro s _ c hc; exact absurd hc (List.not_mem_nil c)
  | cons c0 rest ih =>
    intro s hb c hc
    show (getN (completeNodes (completeNode s c0).1 rest).1 c).completed = true
    rcases List.mem_cons.mp hc with hc0 | hcr
    · subst hc0
      exact completeNodes_completed_mono rest (completeNode s c).1 c
        (by rw [completeNode_len]; exact hb c (List.mem_cons_self _ _))
        (completeNode_completed_self s c (hb c (List.mem_cons_self _ _)))
    · exact ih (completeNode s c0).1
        (fun y hy => by
          rw [completeNode_len]
          exact hb y (List.mem_cons_of_mem _ hy)) c hcr

/-- How `_completeNodes` evolves the active-slot list: starting from a
representation `M`, each first-time completion either promotes (its static
successor takes the slot) or retires its node, so the final list contains
only original occupants and promoted successors, and an errored completing
node leaves the list for good — neither it nor its successor is present
afterwards. -/
theorem completeNodes_evolve (cs : List ℕ) : ∀ (t : Sched) (M : List ℕ),
    wfS t M →
    (∀ c ∈ cs, c ∈ M) →
    (∀ c ∈ cs, ∀ k, (getN t c).sub = some k →
      k < t.arena.length ∧ k ∉ M ∧
      ∀ c' ∈ cs, (getN t c').sub = some k → c' = c) →
    cs.Nodup →
    ∃ M', wfS (completeNodes t cs).1 M' ∧
      (∀ x ∈ M', x ∈ M ∨ ∃ c ∈ cs, (getN t c).sub = some x) ∧
      (∀ c ∈ cs, (getN t c).completed = false → (getN t c).error = true →
        c ∉ M' ∧ ∀ k, (getN t c).sub = some k → k ∉ M') := by
  induction cs with
  | nil =>
    intro t M hwf _ _ _
    exact ⟨M, hwf, fun x hx => Or.inl hx,
      fun c hc => absurd hc (List.not_mem_nil c)⟩
  | cons c rest ih =>
    intro t M hwf hmem hsub hnd
    have hcM : c ∈ M := hmem c (List.mem_cons_self _ _)
    have hcLen : c < t.arena.length := hwf.2.2.2 c hcM
    have hndr : rest.Nodup := (List.nodup_cons.mp hnd).2
    have hcr : c ∉ rest := (List.nodup_cons.mp hnd).1
    have hstate : (completeNodes t (c :: rest)).1 =
        (completeNodes (completeNode t c).1 rest).1 := rfl
    by_cases hcc : (getN t c).completed = true
    · have hid : (completeNode t c).1 = t := by
        unfold completeNode
        rw [if_pos hcc]
      obtain ⟨M', h1, h2, h3⟩ := ih t M hwf
        (fun c' hc' => hmem c' (List.mem_cons_of_mem _ hc'))
        (fun c' hc' k hk => by
          obtain ⟨ha, hb, hu⟩ := hsub c' (List.mem_cons_of_mem _ hc') k hk
          exact ⟨ha, hb,
            fun c'' hc'' hk'' => hu c'' (List.mem_cons_of_mem _ hc'') hk''⟩)
        hndr
      refine ⟨M', by rw [hstate, hid]; exact h1, ?_, ?_⟩
      · intro x hx
        rcases h2 x hx with h | ⟨c', hc', hk⟩
        · exact Or.inl h
        · exact Or.inr ⟨c', List.mem_cons_of_mem _ hc', hk⟩
      · intro c' hc' hcomp herr
        rcases List.mem_cons.mp hc' with hcc' | hcr'
        · subst hcc'
          rw [hcc] at hcomp
          exact Bool.noConfusion hcomp
        · exact h3 c' hcr' hcomp herr
    · obtain ⟨A, B, hM⟩ := List.append_of_mem hcM
      subst hM
      have hwf1 : wfS (setN t c { getN t c with completed := true })
          (A ++ c :: B) := by
        refine wfS_of_links t _ _ hwf rfl rfl (by simp) ?_
        intro x hx
        rw [getN_setN_cases]
        by_cases hcx : c = x ∧ x < t.arena.length
        · rw [if_pos hcx]
          obtain ⟨h1, _⟩ := hcx
          subst h1
          exact ⟨rfl, rfl⟩
        · rw [if_neg hcx]
          exact ⟨rfl, rfl⟩
      have hmem' : ∀ M₁ : List ℕ,
          (∀ y, y ∈ A ∨ y ∈ B → y ∈ M₁) → ∀ c' ∈ rest, c' ∈ M₁ := by
        intro M₁ hAB c' hc'
        have hc'M : c' ∈ A ++ c :: B := hmem c' (List.mem_cons_of_mem _ hc')
        have hne : c' ≠ c := fun h => hcr (h ▸ hc')
        rcases List.mem_append.mp hc'M with h | h
        · exact hAB c' (Or.inl h)
        · rcases List.mem_cons.mp h with h' | h'
          · exact absurd h' hne
          · exact hAB c' (Or.inr h')
      cases hsubc : (getN t c).sub with
      | none =>
        have hred : (completeNode t c).1 =
            (removeNode (setN t c { getN t c with completed := true }) c).1 := by
          rw [completeNode_reduce t c hcLen hcc, hsubc]
        have hwf2 : wfS (completeNode t c).1 (A ++ B) := by
          rw [hred]
          exact wf_remove _ c A B hwf1
        obtain ⟨M', h1, h2, h3⟩ := ih (completeNode t c).1 (A ++ B) hwf2
          (hmem' (A ++ B) (fun y hy => List.mem_append.mpr hy))
          (by
            intro c' hc' k hk
            rw [(completeNode_preserves t c c').2.1] at hk
            obtain ⟨ha, hb, hu⟩ := hsub c' (List.mem_cons_of_mem _ hc') k hk
            refine ⟨by rw [completeNode_len]; exact ha, ?_, ?_⟩
            · intro hkAB
              refine hb ?_
              rcases List.mem_append.mp hkAB with h | h
              · exact List.mem_append.mpr (Or.inl h)
              · exact List.mem_append.mpr (Or.inr (List.mem_cons_of_mem _ h))
            · intro c'' hc'' hk''
              rw [(completeNode_preserves t c c'').2.1] at hk''
              exact hu c'' (List.mem_cons_of_mem _ hc'') hk'')
          hndr
        refine ⟨M', by rw [hstate]; exact h1, ?_, ?_⟩
        · intro x hx
          rcases h2 x hx with hxM | ⟨c', hc', hk⟩
          · rcases List.mem_append.mp hxM with h | h
            · exact Or.inl (List.mem_append.mpr (Or.inl h))
            · exact Or.inl (List.mem_append.mpr (Or.inr (List.mem_cons_of_mem _ h)))
          · rw [(completeNode_preserves t c c').2.1] at hk
            exact Or.inr ⟨c', List.mem_cons_of_mem _ hc', hk⟩
        · intro c' hc' hcomp herr
          rcases List.mem_cons.mp hc' with hcc' | hcr'
          · subst hcc'
            constructor
            · intro hcM'
              rcases h2 c' hcM' with hcAB | ⟨c'', hc'', hk⟩
              · have hmid : (c' :: (A ++ B)).Nodup :=
                  List.nodup_middle.mp hwf.2.2.1
                exact (List.nodup_cons.mp hmid).1 hcAB
              · rw [(completeNode_preserves t c' c'').2.1] at hk
                obtain ⟨_, hb, _⟩ :=
                  hsub c'' (List.mem_cons_of_mem _ hc'') c' hk
                exact hb hcM
            · intro k hk
              rw [hsubc] at hk
              exact Option.noConfusion hk
          · have hc'comp : (getN (completeNode t c).1 c').completed = false := by
              rw [(completeNode_preserves t c c').2.2.2.2
                (fun h => hcr (h ▸ hcr'))]
              exact hcomp
            have hc'err : (getN (completeNode t c).1 c').error = true := by
              rw [(completeNode_preserves t c c').1]
              exact herr
            obtain ⟨hnot, hsubnot⟩ := h3 c' hcr' hc'comp hc'err
            refine ⟨hnot, fun k hk => hsubnot k ?_⟩
            rw [(completeNode_preserves t c c').2.1]
            exact hk
      | some k0 =>
        obtain ⟨hk0len, hk0M, hk0uniq⟩ := hsub c (List.mem_cons_self _ _) k0 hsubc
        cases herrc : (getN t c).error with
        | true =>
          have hred : (completeNode t c).1 =
              (removeNode (setN t c { getN t c with completed := true }) c).1 := by
            rw [completeNode_reduce t c hcLen hcc, hsubc, herrc]
            rfl
          have hwf2 : wfS (completeNode t c).1 (A ++ B) := by
            rw [hred]
            exact wf_remove _ c A B hwf1
          obtain ⟨M', h1, h2, h3⟩ := ih (completeNode t c).1 (A ++ B) hwf2
            (hmem' (A ++ B) (fun y hy => List.mem_append.mpr hy))
            (by
              intro c' hc' k hk
              rw [(completeNode_preserves t c c').2.1] at hk
              obtain ⟨ha, hb, hu⟩ := hsub c' (List.mem_cons_of_mem _ hc') k hk
              refine ⟨by rw [completeNode_len]; exact ha, ?_, ?_⟩
              · intro hkAB
                refine hb ?_
                rcases List.mem_append.mp hkAB with h | h
                · exact List.mem_append.mpr (Or.inl h)
                · exact List.mem_append.mpr (Or.inr (List.mem_cons_of_mem _ h))
              · intro c'' hc'' hk''
                rw [(completeNode_preserves t c c'').2.1] at hk''
                exact hu c'' (List.mem_cons_of_mem _ hc'') hk'')
            hndr
          refine ⟨M', by rw [hstate]; exact h1, ?_, ?_⟩
          · intro x hx
            rcases h2 x hx with hxM | ⟨c', hc', hk⟩
            · rcases List.mem_append.mp hxM with h | h
              · exact Or.inl (List.mem_append.mpr (Or.inl h))
              · exact Or.inl (List.mem_append.mpr (Or.inr (List.mem_cons_of_mem _ h)))
            · rw [(completeNode_preserves t c c').2.1] at hk
              exact Or.inr ⟨c', List.mem_cons_of_mem _ hc', hk⟩
          · intro c' hc' hcomp herr
            rcases List.mem_cons.mp hc' with hcc' | hcr'
            · subst hcc'
              constructor
              · intro hcM'
                rcases h2 c' hcM' with hcAB | ⟨c'', hc'', hk⟩
                · have hmid : (c' :: (A ++ B)).Nodup :=
                    List.nodup_middle.mp hwf.2.2.1
                  exact (List.nodup_cons.mp hmid).1 hcAB
                · rw [(completeNode_preserves t c' c'').2.1] at hk
                  obtain ⟨_, hb, _⟩ :=
                    hsub c'' (List.mem_cons_of_mem _ hc'') c' hk
                  exact hb hcM
              · intro k hk
                rw [hsubc] at hk
                have hkk0 : k0 = k := Option.some.inj hk
                subst hkk0
                intro hk0M'
                rcases h2 k0 hk0M' with hk0AB | ⟨c'', hc'', hk''⟩
                · refine hk0M ?_
                  rcases List.mem_append.mp hk0AB with h | h
                  · exact List.mem_append.mpr (Or.inl h)
                  · exact List.mem_append.mpr (Or.inr (List.mem_cons_of_mem _ h))
                · rw [(completeNode_preserves t c' c'').2.1] at hk''
                  have := hk0uniq c'' (List.mem_cons_of_mem _ hc'') hk''
                  subst this
                  exact hcr hc''
            · have hc'comp : (getN (completeNode t c).1 c').completed = false := by
                rw [(completeNode_preserves t c c').2.2.2.2
                  (fun h => hcr (h ▸ hcr'))]
                exact hcomp
              have hc'err : (getN (completeNode t c).1 c').error = true := by
                rw [(completeNode_preserves t c c').1]
                exact herr
              obtain ⟨hnot, hsubnot⟩ := h3 c' hcr' hc'comp hc'err
              refine ⟨hnot, fun k hk => hsubnot k ?_⟩
              rw [(completeNode_preserves t c c').2.1]
              exact hk
        | false =>
          have hred : (completeNode t c).1 =
              (replaceNode (setN t c { getN t c with completed := true }) c k0).1 := by
            rw [completeNode_reduce t c hcLen hcc, hsubc, herrc]
            rfl
          have hwf2 : wfS (completeNode t c).1 (A ++ k0 :: B) := by
            rw [hred]
            exact wf_replace _ c k0 A B hwf1 (by simpa using hk0len) hk0M
          obtain ⟨M', h1, h2, h3⟩ := ih (completeNode t c).1 (A ++ k0 :: B) hwf2
            (hmem' (A ++ k0 :: B) (fun y hy => by
              rcases hy with h | h
              · exact List.mem_append.mpr (Or.inl h)
              · exact List.mem_append.mpr (Or.inr (List.mem_cons_of_mem _ h))))
            (by
              intro c' hc' k hk
              rw [(completeNode_preserves t c c').2.1] at hk
              obtain ⟨ha, hb, hu⟩ := hsub c' (List.mem_cons_of_mem _ hc') k hk
              refine ⟨by rw [completeNode_len]; exact ha, ?_, ?_⟩
              · intro hkM₁
                rcases List.mem_append.mp hkM₁ with h | h
                · exact hb (List.mem_append.mpr (Or.inl h))
                · rcases List.mem_cons.mp h with h' | h'
                  · subst h'
                    exact hcr ((hu c (List.mem_cons_self _ _) hsubc) ▸ hc')
                  · exact hb (List.mem_append.mpr (Or.inr (List.mem_cons_of_mem _ h')))
              · intro c'' hc'' hk''
                rw [(completeNode_preserves t c c'').2.1] at hk''
                exact hu c'' (List.mem_cons_of_mem _ hc'') hk'')
            hndr
          refine ⟨M', by rw [hstate]; exact h1, ?_, ?_⟩
          · intro x hx
            rcases h2 x hx with hxM | ⟨c', hc', hk⟩
            · rcases List.mem_append.mp hxM with h | h
              · exact Or.inl (List.mem_append.mpr (Or.inl h))
              · rcases List.mem_cons.mp h with h' | h'
                · subst h'
                  exact Or.inr ⟨c, List.mem_cons_self _ _, hsubc⟩
                · exact Or.inl (List.mem_append.mpr (Or.inr (List.mem_cons_of_mem _ h')))
            · rw [(completeNode_preserves t c c').2.1] at hk
              exact Or.inr ⟨c', List.mem_cons_of_mem _ hc', hk⟩
          · intro c' hc' hcomp herr
            rcases List.mem_cons.mp hc' with hcc' | hcr'
            · subst hcc'
              rw [herrc] at herr
              exact Bool.noConfusion herr
            · have hc'comp : (getN (completeNode t c).1 c').completed = false := by
                rw [(completeNode_preserves t c c').2.2.2.2
                  (fun h => hcr (h ▸ hcr'))]
                exact hcomp
              have hc'err : (getN (completeNode t c).1 c').error = true := by
                rw [(completeNode_preserves t c c').1]
                exact herr
              obtain ⟨hnot, hsubnot⟩ := h3 c' hcr' hc'comp hc'err
              refine ⟨hnot, fun k hk => hsubnot k ?_⟩
              rw [(completeNode_preserves t c c').2.1]
              exact hk

/-- `_tick` on a live node whose callback throws: the exception is caught
at the tick boundary, the node's error flag is set, the chain is rejected
with exactly the thrown value, and the tick reports done. -/
theorem tickNode_throw (env : Env) (i : ℕ) (clockNow ts : ℚ) (n : NodeData)
    (e : ℕ) (hnc : n.completed = false) (hne : n.error = false)
    (hth : (applyAnimation env i (latchStart clockNow n)
      (rawProgressOf clockNow ts n)).2 = some e) :
    tickNode env i clockNow ts n =
      ({ latchStart clockNow n with error := true }, true,
        (applyAnimation env i (latchStart clockNow n)
          (rawProgressOf clockNow ts n)).1 ++ [Ev.rejectChain n.chain e]) := by
  unfold tickNode
  simp only [hnc, hne, Bool.or_self, if_false]
  have hd : (latchStart clockNow n).duration = n.duration := by
    unfold latchStart; by_cases hs : n.started = true <;> simp [hs]
  have hch : (latchStart clockNow n).chain = n.chain := by
    unfold latchStart; by_cases hs : n.started = true <;> simp [hs]
  rw [show clampQ ((ts - (latchStart clockNow n).startTime) /
        (latchStart clockNow n).duration) = rawProgressOf clockNow ts n by
      rw [hd]; rfl]
  rw [show (applyAnimation env i (latchStart clockNow n)
        (rawProgressOf clockNow ts n)).2 = some e from hth]
  rw [hch]
  rfl

/-- `_applyAnimation` emits either nothing or a single animator invocation
on the ticked node. -/
theorem applyAnimation_shape (env : Env) (i : ℕ) (n : NodeData) (p : ℚ) :
    (applyAnimation env i n p).1 = [] ∨
    ∃ eid a, (applyAnimation env i n p).1 = [Ev.effectCall i eid a p] := by
  unfold applyAnimation
  cases n.effect with
  | none => exact Or.inl rfl
  | some eid =>
    dsimp only
    cases n.timing with
    | none =>
      dsimp only
      cases env.effectRun eid p p with
      | none => exact Or.inr ⟨eid, p, rfl⟩
      | some e => exact Or.inr ⟨eid, p, rfl⟩
    | some tid =>
      dsimp only
      cases env.timingRun tid p with
      | error e => exact Or.inl rfl
      | ok x =>
        dsimp only
        cases env.effectRun eid x p with
        | none => exact Or.inr ⟨eid, x, rfl⟩
        | some e => exact Or.inr ⟨eid, x, rfl⟩

/-- Every event `_applyAnimation` emits is an animator invocation on the
ticked node. -/
theorem applyAnimation_events (env : Env) (i : ℕ) (n : NodeData) (p : ℚ) :
    ∀ ev ∈ (applyAnimation env i n p).1,
      ∃ eid a r, ev = Ev.effectCall i eid a r := by
  intro ev hev
  rcases applyAnimation_shape env i n p with h | ⟨eid, a, h⟩
  · rw [h] at hev
    exact absurd hev (List.not_mem_nil ev)
  · rw [h] at hev
    rw [List.mem_singleton] at hev
    exact ⟨eid, a, p, hev⟩

/-- Every event a tick of node `x` emits is either an animator invocation
on `x` or a rejection of `x`'s own chain. -/
theorem tickNode_events (env : Env) (x : ℕ) (cn ts : ℚ) (n : NodeData) :
    ∀ ev ∈ (tickNode env x cn ts n).2.2,
      (∃ eid a r, ev = Ev.effectCall x eid a r) ∨
      ∃ e, ev = Ev.rejectChain n.chain e := by
  unfold tickNode
  by_cases h : (n.completed || n.error) = true
  · rw [if_pos h]
    intro ev hev
    exact absurd hev (List.not_mem_nil ev)
  · rw [if_neg h]
    dsimp only
    have hch : (latchStart cn n).chain = n.chain := by
      unfold latchStart; by_cases hs : n.started = true <;> simp [hs]
    cases happ : (applyAnimation env x (latchStart cn n)
        (clampQ ((ts - (latchStart cn n).startTime) /
          (latchStart cn n).duration))).2 with
    | some e =>
      intro ev hev
      rcases List.mem_append.mp hev with h1 | h1
      · exact Or.inl (applyAnimation_events env x _ _ ev h1)
      · rw [List.mem_singleton] at h1
        subst h1
        exact Or.inr ⟨e, by rw [hch]⟩
    | none =>
      intro ev hev
      exact Or.inl (applyAnimation_events env x _ _ ev hev)

/-- `_remove` can only fire `_onCompleted`: its events are resolutions. -/
theorem removeNode_events (s : Sched) (i : ℕ) :
    ∀ ev ∈ (removeNode s i).2, ∃ ch, ev = Ev.resolveChain ch := by
  intro ev hev
  unfold removeNode at hev
  dsimp only at hev
  split at hev
  · rw [List.mem_singleton] at hev
    exact ⟨_, hev⟩
  · exact absurd hev (List.not_mem_nil ev)

/-- `_replace` can only fire `_onCompleted`: its events are resolutions. -/
theorem replaceNode_events (s : Sched) (i j : ℕ) :
    ∀ ev ∈ (replaceNode s i j).2, ∃ ch, ev = Ev.resolveChain ch := by
  intro ev hev
  unfold replaceNode at hev
  dsimp only at hev
  split at hev
  · rw [List.mem_singleton] at hev
    exact ⟨_, hev⟩
  · exact absurd hev (List.not_mem_nil ev)

/-- `_complete` can only fire `_onCompleted`: its events are resolutions —
never a rejection. -/
theorem completeNode_events (t : Sched) (c : ℕ) :
    ∀ ev ∈ (completeNode t c).2, ∃ ch, ev = Ev.resolveChain ch := by
  intro ev hev
  unfold completeNode at hev
  split at hev
  · exact absurd hev (List.not_mem_nil ev)
  · dsimp only at hev
    split at hev
    · split at hev
      · exact replaceNode_events _ _ _ ev hev
      · exact removeNode_events _ _ ev hev
    · exact removeNode_events _ _ ev hev

/-- `_completeNodes` events are resolutions only. -/
theorem completeNodes_events (cs : List ℕ) : ∀ (t : Sched),
    ∀ ev ∈ (completeNodes t cs).2, ∃ ch, ev = Ev.resolveChain ch := by
  induction cs with
  | nil => intro t ev hev; exact absurd hev (List.not_mem_nil ev)
  | cons c rest ih =>
    intro t ev hev
    have hsplit : (completeNodes t (c :: rest)).2 =
        (completeNode t c).2 ++ (completeNodes (completeNode t c).1 rest).2 := rfl
    rw [hsplit] at hev
    rcases List.mem_append.mp hev with h | h
    · exact completeNode_events t c ev h
    · exact ih _ ev h

/-- The traversal depends only on the head pointer and the arena. -/
theorem activeIds_ext (s s' : Sched) (harena : s'.arena = s.arena)
    (hhead : s'.head = s.head) : activeIds s' = activeIds s := by
  unfold activeIds
  rw [hhead, harena]
  exact reachAux_congr_next s s'
    (fun x => by
      show (s'.arena.getD x default).next = (s.arena.getD x default).next
      rw [harena]) _ _

theorem revokeGo_none (f : ℕ) (s : Sched) : revokeGo s none f = (s, []) := by
  cases f <;> rfl

theorem staticChain_succ (s : Sched) (j : ℕ) (fuel : ℕ) :
    staticChain s j (fuel + 1) =
      j :: (match (getN s j).sub with
            | none => []
            | some k => staticChain s k fuel) := rfl

/-- The static chain depends only on the `sub` links. -/
theorem staticChain_congr (s s' : Sched)
    (hsub : ∀ y, (getN s' y).sub = (getN s y).sub) :
    ∀ (fuel : ℕ) (j : ℕ), staticChain s' j fuel = staticChain s j fuel := by
  intro fuel
  induction fuel with
  | zero => intro j; rfl
  | succ fuel ih =>
    intro j
    rw [staticChain_succ, staticChain_succ, hsub j]
    cases (getN s j).sub with
    | none => rfl
    | some k =>
      show j :: staticChain s' k fuel = j :: staticChain s k fuel
      rw [ih k]

/-- `_remove` never fires `_onError`; it fires `_onCompleted` exactly when
the removed node carries it. -/
theorem removeNode_fires (s : Sched) (j : ℕ) :
    (removeNode s j).2 =
      (if (getN s j).hasOnCompleted then
        [Ev.resolveChain (getN s j).chain] else []) := by
  have h1 : (removeNode s j).2 =
      (if (getN (removeNode s j).1 j).hasOnCompleted then
        [Ev.resolveChain (getN (removeNode s j).1 j).chain] else []) := rfl
  rw [h1, (removeNode_sameFlags s j j).2.2.1,
    (removeNode_sameFlags s j j).2.2.2.1]

/-- `_remove(i)` writes only `i`'s former neighbours (besides the
timeline's head/tail pointers): every other node object is untouched. -/
theorem removeNode_links_other (u : Sched) (i y : ℕ)
    (hpy : (getN u i).prev ≠ some y) (hny : (getN u i).next ≠ some y) :
    getN (removeNode u i).1 y = getN u y := by
  have hnext1 : (getN (removeStep1 u i) i).next = (getN u i).next := by
    unfold removeStep1
    cases hp : (getN u i).prev with
    | none => rfl
    | some p =>
      rw [getN_setN_cases]
      by_cases hc : p = i ∧ i < u.arena.length
      · rw [if_pos hc]
      · rw [if_neg hc]
  have h1 : getN (removeStep1 u i) y = getN u y := by
    unfold removeStep1
    cases hp : (getN u i).prev with
    | none => rfl
    | some p =>
      have hpy' : p ≠ y := fun h => hpy (h ▸ hp)
      exact getN_setN_ne _ _ _ _ hpy'
  have h2 : getN (removeStep2 (removeStep1 u i) i) y = getN (removeStep1 u i) y := by
    unfold removeStep2
    cases hq : (getN (removeStep1 u i) i).next with
    | none => rfl
    | some q =>
      have hq' : (getN u i).next = some q := by rw [← hnext1, hq]
      have hqy : q ≠ y := fun h => hny (h ▸ hq')
      exact getN_setN_ne _ _ _ _ hqy
  have h34 : getN (removeNode u i).1 y =
      getN (removeStep2 (removeStep1 u i) i) y := rfl
  rw [h34, h2, h1]

/-- Everything one revocation step does to the node objects: `sub`,
`hasOnCompleted` and `chain` are untouched everywhere, `completed` is
only ever raised (and is raised at the stepped node), the arena size is
kept, the events are resolutions, and the resolution of the stepped
node's chain does fire when it was live and carries the callback. -/
theorem revStep_facts (s : Sched) (j : ℕ) :
    (∀ x, (getN (revStep s j).1 x).sub = (getN s x).sub ∧
      (getN (revStep s j).1 x).hasOnCompleted = (getN s x).hasOnCompleted ∧
      (getN (revStep s j).1 x).chain = (getN s x).chain ∧
      (x ≠ j → (getN (revStep s j).1 x).completed = (getN s x).completed) ∧
      ((getN s x).completed = true → (getN (revStep s j).1 x).completed = true)) ∧
    (revStep s j).1.arena.length = s.arena.length ∧
    (j < s.arena.length → (getN (revStep s j).1 j).completed = true) ∧
    (∀ ev ∈ (revStep s j).2, ∃ ch, ev = Ev.resolveChain ch) ∧
    ((getN s j).completed = false → (getN s j).hasOnCompleted = true →
      j < s.arena.length →
      Ev.resolveChain (getN s j).chain ∈ (revStep s j).2) := by
  unfold revStep
  by_cases hc : (getN s j).completed = true
  · have hcond : ¬((!(getN s j).completed) = true) := by rw [hc]; decide
    rw [if_neg hcond]
    refine ⟨fun x => ⟨rfl, rfl, rfl, fun _ => rfl, fun h => h⟩, rfl, fun _ => hc,
      fun ev hev => absurd hev (List.not_mem_nil ev), fun hf _ _ => ?_⟩
    rw [hf] at hc
    exact Bool.noConfusion hc
  · have hcf : (getN s j).completed = false := by
      cases hcb : (getN s j).completed
      · rfl
      · exact absurd hcb hc
    have hcond : (!(getN s j).completed) = true := by rw [hcf]; rfl
    rw [if_pos hcond]
    have hs1 : ∀ y,
        (getN (setN s j { getN s j with completed := true }) y).sub = (getN s y).sub ∧
        (getN (setN s j { getN s j with completed := true }) y).hasOnCompleted = (getN s y).hasOnCompleted ∧
        (getN (setN s j { getN s j with completed := true }) y).chain = (getN s y).chain ∧
        (y ≠ j → (getN (setN s j { getN s j with completed := true }) y).completed = (getN s y).completed) := by
      intro y
      rw [getN_setN_cases]
      by_cases hjy : j = y ∧ y < s.arena.length
      · rw [if_pos hjy]
        obtain ⟨h1, _⟩ := hjy
        subst h1
        exact ⟨rfl, rfl, rfl, fun hyj => absurd rfl hyj⟩
      · rw [if_neg hjy]
        exact ⟨rfl, rfl, rfl, fun _ => rfl⟩
    refine ⟨?_, ?_, ?_, removeNode_events _ _, ?_⟩
    · intro x
      have hr := removeNode_sameFlags (setN s j { getN s j with completed := true }) j x
      obtain ⟨ha1, hb1, hc1, hd1⟩ := hs1 x
      refine ⟨hr.2.1.trans ha1, hr.2.2.1.trans hb1, hr.2.2.2.1.trans hc1,
        fun hxj => (hr.2.2.2.2.2.2.2.2.2).trans (hd1 hxj), fun h => ?_⟩
      by_cases hxj : x = j
      · subst hxj
        exact absurd h hc
      · rw [hr.2.2.2.2.2.2.2.2.2, hd1 hxj]
        exact h
    · rw [removeNode_len]
      simp
    · intro hj0
      rw [(removeNode_sameFlags _ j j).2.2.2.2.2.2.2.2.2,
        getN_setN_self s j _ hj0]
    · intro _ hoc hj0
      have hoc1 : (getN (setN s j { getN s j with completed := true }) j).hasOnCompleted = true := by
        rw [getN_setN_self s j _ hj0]
        exact hoc
      have hch1 : (getN (setN s j { getN s j with completed := true }) j).chain = (getN s j).chain := by
        rw [getN_setN_self s j _ hj0]
      rw [removeNode_fires, hoc1, if_pos rfl, hch1]
      exact List.mem_singleton.mpr rfl

/-- Flags and events across a whole `_revokeSubNodes` walk: `sub`,
`hasOnCompleted` and `chain` of every node are untouched, `completed`
bits are only ever raised, the arena size is kept, and every event is a
resolution. -/
theorem revokeGo_preserves (fuel : ℕ) : ∀ (s : Sched) (cur : Option ℕ),
    (∀ x, (getN (revokeGo s cur fuel).1 x).sub = (getN s x).sub ∧
      (getN (revokeGo s cur fuel).1 x).hasOnCompleted = (getN s x).hasOnCompleted ∧
      (getN (revokeGo s cur fuel).1 x).chain = (getN s x).chain ∧
      ((getN s x).completed = true →
        (getN (revokeGo s cur fuel).1 x).completed = true)) ∧
    (revokeGo s cur fuel).1.arena.length = s.arena.length ∧
    (∀ ev ∈ (revokeGo s cur fuel).2, ∃ ch, ev = Ev.resolveChain ch) := by
  induction fuel with
  | zero =>
    intro s cur
    exact ⟨fun x => ⟨rfl, rfl, rfl, fun h => h⟩, rfl,
      fun ev hev => absurd hev (List.not_mem_nil ev)⟩
  | succ fuel ih =>
    intro s cur
    cases cur with
    | none =>
      exact ⟨fun x => ⟨rfl, rfl, rfl, fun h => h⟩, rfl,
        fun ev hev => absurd hev (List.not_mem_nil ev)⟩
    | some j =>
      obtain ⟨hg, hlen, hj, hevs, hfire⟩ := revStep_facts s j
      obtain ⟨hg2, hlen2, hev2⟩ := ih (revStep s j).1 ((getN (revStep s j).1 j).sub)
      have hstate : (revokeGo s (some j) (fuel + 1)).1 =
          (revokeGo (revStep s j).1 ((getN (revStep s j).1 j).sub) fuel).1 := rfl
      have hevents : (revokeGo s (some j) (fuel + 1)).2 =
          (revStep s j).2 ++
          (revokeGo (revStep s j).1 ((getN (revStep s j).1 j).sub) fuel).2 := rfl
      refine ⟨?_, ?_, ?_⟩
      · intro x
        rw [hstate]
        obtain ⟨ha2, hb2, hc2, hd2⟩ := hg2 x
        obtain ⟨ha1, hb1, hc1, _, he1⟩ := hg x
        exact ⟨ha2.trans ha1, hb2.trans hb1, hc2.trans hc1,
          fun h => hd2 (he1 h)⟩
      · rw [hstate, hlen2, hlen]
      · intro ev hev
        rw [hevents] at hev
        rcases List.mem_append.mp hev with h | h
        · exact hevs ev h
        · exact hev2 ev h

/-- The walk marks every node of the static chain completed. -/
theorem revokeGo_marks (fuel : ℕ) : ∀ (s : Sched) (j : ℕ),
    (∀ x ∈ staticChain s j fuel, x < s.arena.length) →
    ∀ x ∈ staticChain s j fuel,
      (getN (revokeGo s (some j) fuel).1 x).completed = true := by
  induction fuel with
  | zero => intro s j _ x hx; exact absurd hx (List.not_mem_nil x)
  | succ fuel ih =>
    intro s j hb x hx
    rw [staticChain_succ] at hx hb
    have hj0 : j < s.arena.length := hb j (List.mem_cons_self _ _)
    obtain ⟨hg, hlen, hjc, _, _⟩ := revStep_facts s j
    have hstate : (revokeGo s (some j) (fuel + 1)).1 =
        (revokeGo (revStep s j).1 ((getN (revStep s j).1 j).sub) fuel).1 := rfl
    rw [hstate]
    rcases List.mem_cons.mp hx with hxj | hxt
    · rw [hxj]
      exact ((revokeGo_preserves fuel (revStep s j).1
        ((getN (revStep s j).1 j).sub)).1 j).2.2.2 (hjc hj0)
    · cases hsubj : (getN s j).sub with
      | none => rw [hsubj] at hxt; exact absurd hxt (List.not_mem_nil x)
      | some k =>
        rw [hsubj] at hxt
        have hsubr : (getN (revStep s j).1 j).sub = some k := by
          rw [(hg j).1, hsubj]
        rw [hsubr]
        have hchain_eq : staticChain (revStep s j).1 k fuel =
            staticChain s k fuel :=
          staticChain_congr s (revStep s j).1 (fun y => (hg y).1) fuel k
        exact ih (revStep s j).1 k
          (by
            rw [hchain_eq, hlen]
            intro y hy
            exact hb y (by rw [hsubj]; exact List.mem_cons_of_mem _ hy))
          x (by rw [hchain_eq]; exact hxt)

/-- The walk fires the resolution of every live chain node that carries
the completion callback — in an `enqueue`-built chain, the terminal
phase. -/
theorem revokeGo_fires (fuel : ℕ) : ∀ (s : Sched) (j t : ℕ),
    (∀ x ∈ staticChain s j fuel, x < s.arena.length) →
    (staticChain s j fuel).Nodup →
    t ∈ staticChain s j fuel →
    (getN s t).completed = false →
    (getN s t).hasOnCompleted = true →
    Ev.resolveChain (getN s t).chain ∈ (revokeGo s (some j) fuel).2 := by
  induction fuel with
  | zero => intro s j t _ _ ht _ _; exact absurd ht (List.not_mem_nil t)
  | succ fuel ih =>
    intro s j t hb hnd ht hcm hoc
    rw [staticChain_succ] at hb hnd ht
    have hj0 : j < s.arena.length := hb j (List.mem_cons_self _ _)
    obtain ⟨hg, hlen, hjc, hevs, hfire⟩ := revStep_facts s j
    have hevents : (revokeGo s (some j) (fuel + 1)).2 =
        (revStep s j).2 ++
        (revokeGo (revStep s j).1 ((getN (revStep s j).1 j).sub) fuel).2 := rfl
    rw [hevents]
    rcases List.mem_cons.mp ht with htj | htt
    · subst htj
      exact List.mem_append_left _ (hfire hcm hoc hj0)
    · have htj : t ≠ j := by
        intro hte
        subst hte
        exact (List.nodup_cons.mp hnd).1 htt
      cases hsubj : (getN s j).sub with
      | none => rw [hsubj] at htt; exact absurd htt (List.not_mem_nil t)
      | some k =>
        rw [hsubj] at htt hnd
        have hsubr : (getN (revStep s j).1 j).sub = some k := by
          rw [(hg j).1, hsubj]
        rw [hsubr]
        have hchain_eq : staticChain (revStep s j).1 k fuel =
            staticChain s k fuel :=
          staticChain_congr s (revStep s j).1 (fun y => (hg y).1) fuel k
        have hct : (getN (revStep s j).1 t).completed = false := by
          rw [(hg t).2.2.2.1 htj]
          exact hcm
        have hoct : (getN (revStep s j).1 t).hasOnCompleted = true := by
          rw [(hg t).2.1]
          exact hoc
        have hres := ih (revStep s j).1 k t
          (by
            rw [hchain_eq, hlen]
            intro y hy
            exact hb y (by rw [hsubj]; exact List.mem_cons_of_mem _ hy))
          (by rw [hchain_eq]; exact (List.nodup_cons.mp hnd).2)
          (by rw [hchain_eq]; exact htt) hct hoct
        rw [(hg t).2.2.1] at hres
        exact List.mem_append_right _ hres

/-- The walk over never-linked nodes (fresh descendants: no active-slot
links, not the timeline tail) never writes any node's links; it leaves the
tail alone, and either leaves the head alone or — through `_remove`'s
`this._prevNode` == undefined branch executing `timeline._nextNode =
this._nextNode` — clears it. -/
theorem revokeGo_walk_links (fuel : ℕ) : ∀ (u : Sched) (j : ℕ),
    (∀ x ∈ staticChain u j fuel, (getN u x).prev = none ∧
      (getN u x).next = none ∧ u.tail ≠ some x) →
    (∀ y, (getN (revokeGo u (some j) fuel).1 y).prev = (getN u y).prev ∧
      (getN (revokeGo u (some j) fuel).1 y).next = (getN u y).next) ∧
    ((revokeGo u (some j) fuel).1.head = u.head ∨
      (revokeGo u (some j) fuel).1.head = none) ∧
    (revokeGo u (some j) fuel).1.tail = u.tail := by
  induction fuel with
  | zero =>
    intro u j _
    exact ⟨fun y => ⟨rfl, rfl⟩, Or.inl rfl, rfl⟩
  | succ fuel ih =>
    intro u j hyp
    rw [staticChain_succ] at hyp
    have hj := hyp j (List.mem_cons_self _ _)
    obtain ⟨hg, hlen, _, _, _⟩ := revStep_facts u j
    have hstate : (revokeGo u (some j) (fuel + 1)).1 =
        (revokeGo (revStep u j).1 ((getN (revStep u j).1 j).sub) fuel).1 := rfl
    -- the step never writes links, keeps the tail, and keeps or clears the head
    have hstep : (∀ y, (getN (revStep u j).1 y).prev = (getN u y).prev ∧
          (getN (revStep u j).1 y).next = (getN u y).next) ∧
        ((revStep u j).1.head = u.head ∨ (revStep u j).1.head = none) ∧
        (revStep u j).1.tail = u.tail := by
      unfold revStep
      by_cases hcj : (getN u j).completed = true
      · have hcond : ¬((!(getN u j).completed) = true) := by rw [hcj]; decide
        rw [if_neg hcond]
        exact ⟨fun y => ⟨rfl, rfl⟩, Or.inl rfl, rfl⟩
      · have hcf : (getN u j).completed = false := by
          cases hcb : (getN u j).completed
          · rfl
          · exact absurd hcb hcj
        have hcond : (!(getN u j).completed) = true := by rw [hcf]; rfl
        rw [if_pos hcond]
        have hu1g : ∀ y, getN (setN u j { getN u j with completed := true }) y =
            (if j = y ∧ y < u.arena.length
              then { getN u j with completed := true } else getN u y) :=
          fun y => getN_setN_cases u j y _
        have hprev1 : (getN (setN u j { getN u j with completed := true }) j).prev = none := by
          rw [hu1g j]
          by_cases hlt : j < u.arena.length
          · rw [if_pos ⟨rfl, hlt⟩]
            exact hj.1
          · rw [if_neg (fun hh => hlt hh.2)]
            exact hj.1
        have hnext1 : (getN (setN u j { getN u j with completed := true }) j).next = none := by
          rw [hu1g j]
          by_cases hlt : j < u.arena.length
          · rw [if_pos ⟨rfl, hlt⟩]
            exact hj.2.1
          · rw [if_neg (fun hh => hlt hh.2)]
            exact hj.2.1
        have hs1eq : removeStep1 (setN u j { getN u j with completed := true }) j =
            { setN u j { getN u j with completed := true } with head := none } := by
          unfold removeStep1
          rw [hprev1, hnext1]
        have hs2eq : removeStep2
            { setN u j { getN u j with completed := true } with head := none } j =
            { setN u j { getN u j with completed := true } with head := none } := by
          unfold removeStep2
          rw [show (getN { setN u j { getN u j with completed := true } with
            head := none } j).next = none from hnext1]
        have hstep3 : ∀ v : Sched, v.tail ≠ some j → removeStep3 v j = v := by
          intro v hv
          unfold removeStep3
          rw [if_neg hv]
        have hstep4 : ∀ v : Sched, v.head ≠ some j → removeStep4 v j = v := by
          intro v hv
          unfold removeStep4
          rw [if_neg hv]
        have hs3eq : removeStep3
            { setN u j { getN u j with completed := true } with head := none } j =
            { setN u j { getN u j with completed := true } with head := none } :=
          hstep3 _ hj.2.2
        have hs4eq : removeStep4
            { setN u j { getN u j with completed := true } with head := none } j =
            { setN u j { getN u j with completed := true } with head := none } :=
          hstep4 _ (fun hh => Option.noConfusion hh)
        have hrem : (removeNode (setN u j { getN u j with completed := true }) j).1 =
            { setN u j { getN u j with completed := true } with head := none } := by
          show removeStep4 (removeStep3 (removeStep2
            (removeStep1 (setN u j { getN u j with completed := true }) j) j) j) j = _
          rw [hs1eq, hs2eq, hs3eq, hs4eq]
        rw [hrem]
        refine ⟨fun y => ?_, Or.inr rfl, rfl⟩
        have hgy : getN { setN u j { getN u j with completed := true } with
            head := none } y = getN (setN u j { getN u j with completed := true }) y := rfl
        rw [hgy, hu1g y]
        by_cases hc : j = y ∧ y < u.arena.length
        · rw [if_pos hc]
          obtain ⟨h1, _⟩ := hc
          subst h1
          exact ⟨rfl, rfl⟩
        · rw [if_neg hc]
          exact ⟨rfl, rfl⟩
    obtain ⟨hstepg, hstephead, hsteptail⟩ := hstep
    cases hsubj : (getN u j).sub with
    | none =>
      have hsubr : (getN (revStep u j).1 j).sub = none := by
        rw [(hg j).1, hsubj]
      rw [hstate, hsubr, revokeGo_none]
      exact ⟨hstepg, hstephead, hsteptail⟩
    | some k =>
      have hsubr : (getN (revStep u j).1 j).sub = some k := by
        rw [(hg j).1, hsubj]
      have hchain_eq : staticChain (revStep u j).1 k fuel =
          staticChain u k fuel :=
        staticChain_congr u (revStep u j).1 (fun y => (hg y).1) fuel k
      obtain ⟨hwg, hwhead, hwtail⟩ := ih (revStep u j).1 k
        (by
          rw [hchain_eq]
          intro z hz
          have hz' := hyp z (by rw [hsubj]; exact List.mem_cons_of_mem _ hz)
          refine ⟨(hstepg z).1.trans hz'.1, (hstepg z).2.trans hz'.2.1, ?_⟩
          rw [hsteptail]
          exact hz'.2.2)
      rw [hstate, hsubr]
      refine ⟨fun y => ⟨(hwg y).1.trans (hstepg y).1,
        (hwg y).2.trans (hstepg y).2⟩, ?_, hwtail.trans hsteptail⟩
      rcases hwhead with hw | hw
      · rcases hstephead with hs | hs
        · exact Or.inl (hw.trans hs)
        · exact Or.inr (hw.trans hs)
      · exact Or.inr hw

/-- The whole `revoke()` call decomposed into the first-node step and the
descendant walk. -/
theorem revokeNode_eq (s : Sched) (i : ℕ) :
    revokeNode s i =
      ((revokeGo (revStep s i).1 ((getN (revStep s i).1 i).sub)
        (revStep s i).1.arena.length).1,
       (revStep s i).2 ++
        (revokeGo (revStep s i).1 ((getN (revStep s i).1 i).sub)
          (revStep s i).1.arena.length).2) := rfl

/-! ## C3 -/

/-- C3: one sweep of a non-paused scheduler.  (1) Every occupant of the
active-slot list as it existed at the start of the pass is ticked, each
with the same single clock reading `clock.now()`, and nothing outside the
list is touched; (2) the pass itself never mutates the list structure
(head, tail and the traversal are unchanged — no promotion or retirement
happens mid-pass); (3) the nodes collected for completion are exactly the
occupants whose tick signalled done, in traversal order; (4) `_complete`
runs only after the full pass: the sweep's events are all the tick events
of the start occupants followed by the completion events, and the
completions are applied to the fully-ticked state; (5) if the list is
empty after applying completions (`_poll` returns false), the frame-driver
pulse detaches the scheduler and resets the clock and the list. -/
theorem C3_sweep_single_pass (env : Env) (wall : ℚ) (s : Sched)
    (hpau : s.clock.isPaused = false)
    (hb : ∀ x ∈ activeIds s, x < s.arena.length)
    (hnd : (activeIds s).Nodup) :
    (∀ i ∈ activeIds s,
      getN (processNodes env (s.clock.now wall) s).1 i =
        (tickNode env i (s.clock.now wall) (s.clock.now wall) (getN s i)).1) ∧
    (∀ x, x ∉ activeIds s →
      getN (processNodes env (s.clock.now wall) s).1 x = getN s x) ∧
    ((processNodes env (s.clock.now wall) s).1.head = s.head ∧
      (processNodes env (s.clock.now wall) s).1.tail = s.tail ∧
      activeIds (processNodes env (s.clock.now wall) s).1 = activeIds s) ∧
    ((processNodes env (s.clock.now wall) s).2.1 =
      (activeIds s).filter
        (fun i => (tickNode env i (s.clock.now wall) (s.clock.now wall)
          (getN s i)).2.1)) ∧
    (s.head ≠ none →
      (poll env wall s).2.2 =
        ((activeIds s).flatMap
          (fun i => (tickNode env i (s.clock.now wall) (s.clock.now wall)
            (getN s i)).2.2)) ++
        (completeNodes (processNodes env (s.clock.now wall) s).1
          ((processNodes env (s.clock.now wall) s).2.1)).2 ∧
      (poll env wall s).1.arena =
        (completeNodes (processNodes env (s.clock.now wall) s).1
          ((processNodes env (s.clock.now wall) s).2.1)).1.arena ∧
      ((poll env wall s).2.1 = true ↔
        (completeNodes (processNodes env (s.clock.now wall) s).1
          ((processNodes env (s.clock.now wall) s).2.1)).1.head ≠ none)) ∧
    (s.timer = true → (poll env wall s).2.1 = false →
      (frameStep env wall s).1.timer = false ∧
      (frameStep env wall s).1.clock = ClockState.reset ∧
      (frameStep env wall s).1.head = none ∧
      (frameStep env wall s).1.tail = none ∧
      (frameStep env wall s).2 = (poll env wall s).2.2) := by
  obtain ⟨⟨f1, f2, f3, f4, f5, f6⟩, hout, hin, hcomp, hev⟩ :=
    processGo_spec env (s.clock.now wall) (s.arena.length + 1) s s.head hb hnd
  have hPN : processGo env (s.clock.now wall) s s.head (s.arena.length + 1) =
      processNodes env (s.clock.now wall) s := rfl
  have hAI : reachAux s s.head (s.arena.length + 1) = activeIds s := rfl
  rw [hPN] at f1 f2 f3 f4 f5 f6 hout hin hcomp hev
  rw [hAI] at hout hin hcomp hev
  refine ⟨hin, hout, ⟨f1, f2, ?_⟩, hcomp, ?_, ?_⟩
  · have hnext : ∀ x, (getN (processNodes env (s.clock.now wall) s).1 x).next =
        (getN s x).next := by
      intro x
      by_cases hx : x ∈ activeIds s
      · rw [hin x hx, tickNode_next]
      · rw [hout x hx]
    unfold activeIds
    rw [f1, f6]
    exact reachAux_congr_next s _ hnext _ _
  · intro hhead
    have hguard : (s.clock.isPaused || decide (s.head = none)) = false := by
      simp [hpau, hhead]
    have hpoll : poll env wall s =
        (let pr := processNodes env (s.clock.now wall) s
         let cr := if pr.2.1.isEmpty then (pr.1, [])
           else completeNodes pr.1 pr.2.1
         let s3 := if cr.1.head ≠ none then cr.1
           else { cr.1 with isPolling := false }
         (s3, decide (cr.1.head ≠ none), pr.2.2 ++ cr.2)) := by
      unfold poll
      rw [hguard]
      rfl
    have hcr : (if (processNodes env (s.clock.now wall) s).2.1.isEmpty
          then ((processNodes env (s.clock.now wall) s).1, ([] : List Ev))
          else completeNodes (processNodes env (s.clock.now wall) s).1
            ((processNodes env (s.clock.now wall) s).2.1)) =
        completeNodes (processNodes env (s.clock.now wall) s).1
          ((processNodes env (s.clock.now wall) s).2.1) := by
      cases hc : (processNodes env (s.clock.now wall) s).2.1 with
      | nil => simp [completeNodes_nil]
      | cons a as => simp
    rw [hpoll]
    simp only [hcr]
    refine ⟨?_, ?_, ?_⟩
    · rw [hev]
    · split <;> rfl
    · simp
  · intro htimer hfalse
    have hfs : frameStep env wall s = (cleanup (poll env wall s).1,
        (poll env wall s).2.2) := by
      unfold frameStep
      rw [htimer]
      simp only [Bool.not_true, Bool.false_eq_true, if_false]
      rw [hfalse]
      rfl
    rw [hfs]
    exact ⟨rfl, rfl, rfl, rfl, rfl⟩

/-- Witness for the sweep theorem at `c3s`: the pass leaves the scheduler
head untouched. -/
theorem C3_sweep_witness :
    (processNodes envA (c3s.clock.now 2) c3s).1.head = some 0 := by
  have h := C3_sweep_single_pass envA 2 c3s (by decide) (by decide) (by decide)
  rw [h.2.2.1.1]
  rfl

/-! ## C4 -/

/-- C4: `_complete()` invoked for the first time (completed flag still
false).  If the node has a static successor and did not error, it is
*promoted*: the successor inherits the node's active-slot links, the
scheduler head/tail and the old neighbours are repointed at the successor.
If there is no successor, or the node errored, it is *retired*: head and
tail no longer reference the node, the neighbours are spliced around it,
and no successor is installed (the successor's record, when one exists, is
untouched).  In both branches the `_onCompleted` callback fires exactly
when the completing node carries it — the only path that resolves the
chain's promise.  The side conditions say the node is not its own
active-slot neighbour, its neighbours are real arena nodes, and (for
promotion) the successor is a distinct node outside the slot's
neighbourhood — all true of states the scheduler actually builds. -/
theorem C4_complete_promotes_or_retires (s : Sched) (i : ℕ)
    (h0 : i < s.arena.length)
    (hnc : (getN s i).completed = false)
    (hpi : (getN s i).prev ≠ some i) (hni : (getN s i).next ≠ some i)
    (hpb : ∀ p, (getN s i).prev = some p → p < s.arena.length)
    (hnb : ∀ q, (getN s i).next = some q → q < s.arena.length) :
    (∀ j, (getN s i).sub = some j → (getN s i).error = false →
      j < s.arena.length → j ≠ i →
      (getN s i).prev ≠ some j → (getN s i).next ≠ some j →
      (getN (completeNode s i).1 i).completed = true ∧
      (getN (completeNode s i).1 j).prev = (getN s i).prev ∧
      (getN (completeNode s i).1 j).next = (getN s i).next ∧
      (completeNode s i).1.head = (if s.head = some i then some j else s.head) ∧
      (completeNode s i).1.tail = (if s.tail = some i then some j else s.tail) ∧
      (∀ p, (getN s i).prev = some p → (getN (completeNode s i).1 p).next = some j) ∧
      (∀ q, (getN s i).next = some q → (getN (completeNode s i).1 q).prev = some j) ∧
      (completeNode s i).2 =
        (if (getN s i).hasOnCompleted then [Ev.resolveChain (getN s i).chain]
         else [])) ∧
    (((getN s i).sub = none ∨ (getN s i).error = true) →
      (getN (completeNode s i).1 i).completed = true ∧
      (completeNode s i).1.head ≠ some i ∧
      (completeNode s i).1.tail ≠ some i ∧
      (∀ p, (getN s i).prev = some p →
        (getN (completeNode s i).1 p).next = (getN s i).next) ∧
      (∀ q, (getN s i).next = some q →
        (getN (completeNode s i).1 q).prev = (getN s i).prev) ∧
      (∀ j, (getN s i).sub = some j → j ≠ i →
        (getN s i).prev ≠ some j → (getN s i).next ≠ some j →
        j < s.arena.length → getN (completeNode s i).1 j = getN s j) ∧
      (completeNode s i).2 =
        (if (getN s i).hasOnCompleted then [Ev.resolveChain (getN s i).chain]
         else [])) := by
  have gi : getN (setN s i { getN s i with completed := true }) i =
      { getN s i with completed := true } := getN_setN_self _ _ _ h0
  have gother : ∀ x, x ≠ i →
      getN (setN s i { getN s i with completed := true }) x = getN s x := by
    intro x hx
    exact getN_setN_ne _ _ _ _ (fun h => hx h.symm)
  have hlen1 : (setN s i { getN s i with completed := true }).arena.length =
      s.arena.length := by simp
  constructor
  · intro j hsub herr hjlen hji hpj hnj
    have hred : completeNode s i =
        replaceNode (setN s i { getN s i with completed := true }) i j := by
      unfold completeNode
      rw [hnc]
      simp only [Bool.false_eq_true, if_false, gi]
      rw [show ({ getN s i with completed := true } : NodeData).sub =
            (getN s i).sub from rfl, hsub]
      rw [show ({ getN s i with completed := true } : NodeData).error =
            (getN s i).error from rfl, herr]
      rfl
    obtain ⟨ch, ct, _, _, _, clen, cg, cev⟩ :=
      replaceNode_spec (setN s i { getN s i with completed := true }) i j
        (hlen1 ▸ h0) hji
        (by rw [gi]; exact hpi) (by rw [gi]; exact hni)
        (by rw [gi]; exact hpj) (by rw [gi]; exact hnj)
    rw [hred]
    refine ⟨?_, ?_, ?_, ?_, ?_, ?_, ?_, ?_⟩
    · rw [cg i (hlen1 ▸ h0),
        replacedAt_other _ _ _ _ hji (by rw [gi]; exact hpi)
          (by rw [gi]; exact hni), gi]
    · rw [cg j (hlen1 ▸ hjlen),
        replacedAt_at_j _ _ _ (by rw [gi]; exact hpj) (by rw [gi]; exact hnj),
        gi]
    · rw [cg j (hlen1 ▸ hjlen),
        replacedAt_at_j _ _ _ (by rw [gi]; exact hpj) (by rw [gi]; exact hnj),
        gi]
    · rw [ch]; rfl
    · rw [ct]; rfl
    · intro p hp
      rw [cg p (hlen1 ▸ hpb p hp),
        replacedAt_next_of_prev _ _ _ _ (by rw [gi]; exact hp)]
    · intro q hq
      rw [cg q (hlen1 ▸ hnb q hq),
        replacedAt_prev_of_next _ _ _ _ (by rw [gi]; exact hq)]
    · rw [cev, gi]
  · intro hret
    have hred : completeNode s i =
        removeNode (setN s i { getN s i with completed := true }) i := by
      unfold completeNode
      rw [hnc]
      simp only [Bool.false_eq_true, if_false, gi]
      rcases hret with hs | he
      · rw [show ({ getN s i with completed := true } : NodeData).sub =
              (getN s i).sub from rfl, hs]
      · rw [show ({ getN s i with completed := true } : NodeData).error =
              (getN s i).error from rfl]
        cases hsub : (getN s i).sub <;> simp [he]
    obtain ⟨ch, ct, _, _, _, clen, cg, cev⟩ :=
      removeNode_spec (setN s i { getN s i with completed := true }) i
        (hlen1 ▸ h0) (by rw [gi]; exact hpi) (by rw [gi]; exact hni)
    rw [hred]
    refine ⟨?_, ?_, ?_, ?_, ?_, ?_, ?_⟩
    · rw [cg i (hlen1 ▸ h0),
        removedAt_self _ _ (by rw [gi]; exact hpi) (by rw [gi]; exact hni), gi]
    · rw [ch, gi]
      rcases hp : (getN s i).prev with _ | p
      · simp [hni]
      · simp only [Option.some_ne_none, if_false]
        rw [show (setN s i { getN s i with completed := true }).head = s.head
              from rfl]
        by_cases hh : s.head = some i
        · simp [hh, hni]
        · simp [hh]
    · rw [ct, gi]
      rw [show (setN s i { getN s i with completed := true }).tail = s.tail
            from rfl]
      by_cases ht : s.tail = some i
      · simp [ht, hpi]
      · simp [ht]
    · intro p hp
      rw [cg p (hlen1 ▸ hpb p hp),
        removedAt_next_of_prev _ _ _ (by rw [gi]; exact hp), gi]
    · intro q hq
      rw [cg q (hlen1 ▸ hnb q hq),
        removedAt_prev_of_next _ _ _ (by rw [gi]; exact hq), gi]
    · intro j hsub hji hpj hnj hjlen
      rw [cg j (hlen1 ▸ hjlen),
        removedAt_other _ _ _ (by rw [gi]; exact hpj) (by rw [gi]; exact hnj),
        gother j hji]
    · rw [cev, gi]

/-- Witness for the `_complete` theorem: completing node 0 of `c4s`
promotes node 1 into the slot (the scheduler head now references it) and
marks node 0 completed. -/
theorem C4_complete_witness :
    (completeNode c4s 0).1.head = some 1 ∧
    (getN (completeNode c4s 0).1 0).completed = true := by
  have h := (C4_complete_promotes_or_retires c4s 0 (by decide) (by decide)
      (by decide) (by decide)
      (by intro p hp; simp [c4s, getN] at hp)
      (by intro q hq; simp [c4s, getN] at hq)).1 1 (by decide) (by decide)
      (by decide) (by decide) (by decide) (by decide)
  constructor
  · rw [h.2.2.2.1]
    decide
  · exact h.1

/-! ## C5 -/

/-- C5: `_tick` semantics.  When the node is already completed or errored,
the tick returns true with no state change and no callback invocation.
Otherwise the first tick latches the start time, the raw progress is
`(ts − start) / duration` clamped to `[0, 1]`, the animator (when present)
is invoked with the timing-transformed progress and the raw progress, and
the tick's boolean is exactly `rawProgress ≥ 1`.  The `duration > 0`
hypothesis keeps the statement inside the domain the spec defines
(duration ≤ 0 is flagged as undefined behaviour); the no-throw hypothesis
scopes this claim to the normal path, whose exceptional complement is the
error-handling claim. -/
theorem C5_tick_semantics (env : Env) (i : ℕ) (clockNow ts : ℚ) (n : NodeData)
    (hdur : 0 < n.duration) :
    ((n.completed = true ∨ n.error = true) →
      tickNode env i clockNow ts n = (n, true, [])) ∧
    (n.completed = false → n.error = false →
      ((latchStart clockNow n).started = true ∧
        (latchStart clockNow n).startTime =
          (if n.started = true then n.startTime else clockNow) ∧
        (latchStart clockNow n).completed = n.completed ∧
        (latchStart clockNow n).error = n.error) ∧
      (rawProgressOf clockNow ts n =
          min (max ((ts - (if n.started = true then n.startTime else clockNow)) /
            n.duration) 0) 1 ∧
        0 ≤ rawProgressOf clockNow ts n ∧ rawProgressOf clockNow ts n ≤ 1) ∧
      ((applyAnimation env i (latchStart clockNow n)
          (rawProgressOf clockNow ts n)).2 = none →
        ((tickNode env i clockNow ts n).1 = latchStart clockNow n ∧
          ((tickNode env i clockNow ts n).2.1 = true ↔
            1 ≤ rawProgressOf clockNow ts n) ∧
          (tickNode env i clockNow ts n).2.2 =
            (applyAnimation env i (latchStart clockNow n)
              (rawProgressOf clockNow ts n)).1) ∧
        (n.effect = none →
          (applyAnimation env i (latchStart clockNow n)
            (rawProgressOf clockNow ts n)).1 = []) ∧
        (∀ eid, n.effect = some eid →
          ∃ x, appliedOf env n.timing (rawProgressOf clockNow ts n) = Except.ok x ∧
            (applyAnimation env i (latchStart clockNow n)
              (rawProgressOf clockNow ts n)).1 =
              [Ev.effectCall i eid x (rawProgressOf clockNow ts n)]))) := by
  constructor
  · intro h
    rcases h with h | h <;> simp [tickNode, h]
  · intro hnc hne
    refine ⟨?_, ?_, ?_⟩
    · unfold latchStart
      by_cases hs : n.started = true <;> simp [hs, hnc, hne]
    · refine ⟨?_, ?_, ?_⟩
      · unfold rawProgressOf latchStart clampQ
        by_cases hs : n.started = true <;> simp [hs]
      · unfold rawProgressOf clampQ
        simp
      · unfold rawProgressOf clampQ
        exact min_le_right _ _
    · intro hok
      have hmain : tickNode env i clockNow ts n =
          (latchStart clockNow n, decide (1 ≤ rawProgressOf clockNow ts n),
            (applyAnimation env i (latchStart clockNow n)
              (rawProgressOf clockNow ts n)).1) := by
        unfold tickNode
        simp only [hnc, hne, Bool.or_self, if_false]
        have hd : (latchStart clockNow n).duration = n.duration := by
          unfold latchStart; by_cases hs : n.started = true <;> simp [hs]
        rw [show clampQ ((ts - (latchStart clockNow n).startTime) /
              (latchStart clockNow n).duration) = rawProgressOf clockNow ts n by
            rw [hd]; rfl]
        rw [show (applyAnimation env i (latchStart clockNow n)
              (rawProgressOf clockNow ts n)).2 = none from hok]
        rfl
      refine ⟨⟨by rw [hmain], by rw [hmain]; simp, by rw [hmain]⟩, ?_, ?_⟩
      · intro he
        have hle : (latchStart clockNow n).effect = none := by
          unfold latchStart; by_cases hs : n.started = true <;> simp [hs, he]
        simp [applyAnimation, hle]
      · intro eid he
        have hle : (latchStart clockNow n).effect = some eid := by
          unfold latchStart; by_cases hs : n.started = true <;> simp [hs, he]
        have hlt : (latchStart clockNow n).timing = n.timing := by
          unfold latchStart; by_cases hs : n.started = true <;> simp [hs]
        rw [applyAnimation_eq, hle, hlt] at hok ⊢
        dsimp only at hok ⊢
        cases hap : appliedOf env n.timing (rawProgressOf clockNow ts n) with
        | error e => rw [hap] at hok; simp at hok
        | ok x =>
          rw [hap] at hok
          dsimp only at hok ⊢
          cases her : env.effectRun eid x (rawProgressOf clockNow ts n) with
          | none => exact ⟨x, rfl, rfl⟩
          | some e => rw [her] at hok; simp at hok

unseal Rat.add Rat.sub Rat.mul Rat.inv in
/-- Witness for the tick-semantics theorem: ticking the fresh 2ms node at
`ts = 2` with `clockNow = 1` latches `startTime = 1`, computes raw
progress 1/2, invokes animator `0` at `(1/2, 1/2)`, and reports not yet
complete. -/
theorem C5_tick_semantics_witness :
    (tickNode envA 9 1 2 c5n).1 = latchStart 1 c5n ∧
    (tickNode envA 9 1 2 c5n).2.1 = false ∧
    (tickNode envA 9 1 2 c5n).2.2 = [Ev.effectCall 9 0 (1/2) (1/2)] := by
  have h := (C5_tick_semantics envA 9 1 2 c5n (by decide)).2 rfl rfl
  have h2 := (h.2.2 (by decide)).1
  refine ⟨h2.1, ?_, ?_⟩
  · have hlt : ¬ (1 : ℚ) ≤ rawProgressOf 1 2 c5n := by decide
    have := h2.2.1
    cases hb : (tickNode envA 9 1 2 c5n).2.1 with
    | false => rfl
    | true => exact absurd (this.mp hb) hlt
  · rw [h2.2.2]; decide

/-! ## C6 -/

theorem getN_isPolling_ite (c : Prop) [Decidable c] (u : Sched) (x : ℕ) :
    getN (if c then u else { u with isPolling := false }) x = getN u x := by
  by_cases h : c
  · rw [if_pos h]
  · rw [if_neg h]
    rfl

theorem activeIds_isPolling_ite (c : Prop) [Decidable c] (u : Sched) :
    activeIds (if c then u else { u with isPolling := false }) = activeIds u := by
  by_cases h : c
  · rw [if_pos h]
  · rw [if_neg h]
    exact activeIds_ext u _ rfl rfl

/-- C6: a callback throw during a tick of the sweep.  `i` is the live
occupant (the chain's current phase) whose animator or timing throws `e`
at this sweep's clock reading; the freshness hypotheses say what
`enqueue` guarantees: static successors are in range, not yet in the
active-slot list, distinct between occupants, and distinct chains carry
distinct ids.  Then the sweep (1) sets the erring node's error flag —
the exception is caught at the tick boundary, not propagated; (2) emits
the chain's rejection with exactly `e`; (3) makes that rejection the
chain's *first* settling event (the promise, settled once, rejects with
`e`); (4) retires the phase: it is out of the active-slot list at the end
of this very sweep; (5) never promotes the static successor — it is not
in the list either, and no animator call ever targets it during the
sweep; (6) leaves no node of that chain in the active-slot list. -/
theorem C6_throw_rejects_and_retires (env : Env) (wall : ℚ) (s : Sched)
    (L : List ℕ) (i : ℕ) (e : ℕ)
    (hwf : wfS s L)
    (hpau : s.clock.isPaused = false)
    (hiL : i ∈ L)
    (hnc : (getN s i).completed = false)
    (hne : (getN s i).error = false)
    (hth : (applyAnimation env i (latchStart (s.clock.now wall) (getN s i))
      (rawProgressOf (s.clock.now wall) (s.clock.now wall) (getN s i))).2 =
        some e)
    (hsub : ∀ c ∈ L, ∀ k, (getN s c).sub = some k →
      k < s.arena.length ∧ k ∉ L ∧
      ∀ c' ∈ L, (getN s c').sub = some k → c' = c)
    (hchain : ∀ x ∈ L, x ≠ i → (getN s x).chain ≠ (getN s i).chain ∧
      ∀ k, (getN s x).sub = some k →
        (getN s k).chain ≠ (getN s i).chain) :
    (getN (poll env wall s).1 i).error = true ∧
    Ev.rejectChain (getN s i).chain e ∈ (poll env wall s).2.2 ∧
    ((poll env wall s).2.2.filter (settlesChain (getN s i).chain)).head? =
      some (Ev.rejectChain (getN s i).chain e) ∧
    i ∉ activeIds (poll env wall s).1 ∧
    (∀ k, (getN s i).sub = some k →
      k ∉ activeIds (poll env wall s).1 ∧
      ∀ ev ∈ (poll env wall s).2.2, isEffectCallOf k ev = false) ∧
    (∀ x ∈ activeIds (poll env wall s).1,
      (getN (poll env wall s).1 x).chain ≠ (getN s i).chain) := by
  have hb : ∀ x ∈ L, x < s.arena.length := hwf.2.2.2
  have hnd : L.Nodup := hwf.2.2.1
  have hi0 : i < s.arena.length := hb i hiL
  have hAIs : activeIds s = L := wfS_activeIds s L hwf
  have hbA : ∀ x ∈ activeIds s, x < s.arena.length := by rw [hAIs]; exact hb
  have hndA : (activeIds s).Nodup := by rw [hAIs]; exact hnd
  have hheadL : s.head = L.head? := dll_head s none s.head L hwf.1
  have hhead : s.head ≠ none := by
    rw [hheadL]
    cases L with
    | nil => exact absurd hiL (List.not_mem_nil i)
    | cons a as => simp
  obtain ⟨⟨f1, f2, f3, f4, f5, f6⟩, hout, hin, hcomp, hev⟩ :=
    processGo_spec env (s.clock.now wall) (s.arena.length + 1) s s.head hbA hndA
  have hPN : processGo env (s.clock.now wall) s s.head (s.arena.length + 1) =
      processNodes env (s.clock.now wall) s := rfl
  have hAI : reachAux s s.head (s.arena.length + 1) = activeIds s := rfl
  rw [hPN] at f1 f2 f3 f4 f5 f6 hout hin hcomp hev
  rw [hAI, hAIs] at hout hin hcomp hev
  have hthrow := tickNode_throw env i (s.clock.now wall) (s.clock.now wall)
    (getN s i) e hnc hne hth
  have htrue : (tickNode env i (s.clock.now wall) (s.clock.now wall)
      (getN s i)).2.1 = true := by rw [hthrow]
  have hpi : getN (processNodes env (s.clock.now wall) s).1 i =
      { latchStart (s.clock.now wall) (getN s i) with error := true } := by
    rw [hin i hiL, hthrow]
  have hics : i ∈ (processNodes env (s.clock.now wall) s).2.1 := by
    rw [hcomp]
    exact List.mem_filter.mpr ⟨hiL, htrue⟩
  have hguard : (s.clock.isPaused || decide (s.head = none)) = false := by
    simp [hpau, hhead]
  have hpoll : poll env wall s =
      (let pr := processNodes env (s.clock.now wall) s
       let cr := if pr.2.1.isEmpty then (pr.1, ([] : List Ev))
         else completeNodes pr.1 pr.2.1
       let s3 := if cr.1.head ≠ none then cr.1
         else { cr.1 with isPolling := false }
       (s3, decide (cr.1.head ≠ none), pr.2.2 ++ cr.2)) := by
    unfold poll
    rw [hguard]
    rfl
  have hcr : (if (processNodes env (s.clock.now wall) s).2.1.isEmpty
        then ((processNodes env (s.clock.now wall) s).1, ([] : List Ev))
        else completeNodes (processNodes env (s.clock.now wall) s).1
          ((processNodes env (s.clock.now wall) s).2.1)) =
      completeNodes (processNodes env (s.clock.now wall) s).1
        ((processNodes env (s.clock.now wall) s).2.1) := by
    cases hc : (processNodes env (s.clock.now wall) s).2.1 with
    | nil => rw [hc] at hics; exact absurd hics (List.not_mem_nil i)
    | cons a as => simp
  -- structural evolution of the active-slot list across the completions
  have hlinks : ∀ x ∈ L,
      (getN (processNodes env (s.clock.now wall) s).1 x).prev = (getN s x).prev ∧
      (getN (processNodes env (s.clock.now wall) s).1 x).next = (getN s x).next := by
    intro x hx
    rw [hin x hx]
    exact ⟨(tickNode_fields env x _ _ (getN s x)).2.2.2.2.2.1,
      (tickNode_fields env x _ _ (getN s x)).2.2.2.2.2.2.1⟩
  have hwfpr : wfS (processNodes env (s.clock.now wall) s).1 L :=
    wfS_of_links s _ L hwf f1 f2 f6 hlinks
  have hsubpr : ∀ c ∈ L,
      (getN (processNodes env (s.clock.now wall) s).1 c).sub = (getN s c).sub := by
    intro c hc
    rw [hin c hc]
    exact (tickNode_fields env c _ _ (getN s c)).2.2.2.2.1
  have hchainpr : ∀ y,
      (getN (processNodes env (s.clock.now wall) s).1 y).chain = (getN s y).chain := by
    intro y
    by_cases hy : y ∈ L
    · rw [hin y hy]
      exact (tickNode_fields env y _ _ (getN s y)).2.2.2.2.2.2.2.2
    · rw [hout y hy]
  have hcsL : ∀ c ∈ (processNodes env (s.clock.now wall) s).2.1, c ∈ L := by
    intro c hc
    rw [hcomp] at hc
    exact (List.mem_filter.mp hc).1
  obtain ⟨M', hwfM', hmemM', herrM'⟩ :=
    completeNodes_evolve ((processNodes env (s.clock.now wall) s).2.1)
      (processNodes env (s.clock.now wall) s).1 L hwfpr hcsL
      (by
        intro c hc k hk
        have hcL : c ∈ L := hcsL c hc
        rw [hsubpr c hcL] at hk
        obtain ⟨ha, hbk, hu⟩ := hsub c hcL k hk
        refine ⟨by rw [f6]; exact ha, hbk, ?_⟩
        intro c' hc' hk'
        have hc'L : c' ∈ L := hcsL c' hc'
        rw [hsubpr c' hc'L] at hk'
        exact hu c' hc'L hk')
      (by rw [hcomp]; exact hnd.filter _)
  have hcompl_i : (getN (processNodes env (s.clock.now wall) s).1 i).completed = false := by
    rw [hin i hiL, tickNode_completed]
    exact hnc
  have herr_i : (getN (processNodes env (s.clock.now wall) s).1 i).error = true := by
    rw [hpi]
  obtain ⟨hiM', hsubM'⟩ := herrM' i hics hcompl_i herr_i
  have hAIcr : activeIds (completeNodes (processNodes env (s.clock.now wall) s).1
      ((processNodes env (s.clock.now wall) s).2.1)).1 = M' :=
    wfS_activeIds _ M' hwfM'
  -- the list decomposition around `i` for the event-order conjunct
  obtain ⟨L1, L2, hLdec⟩ := List.append_of_mem hiL
  have hndL : (L1 ++ i :: L2).Nodup := hLdec ▸ hnd
  have hmidL := List.nodup_middle.mp hndL
  have hiL12 : i ∉ L1 ++ L2 := (List.nodup_cons.mp hmidL).1
  have hiL1 : i ∉ L1 := fun h => hiL12 (List.mem_append.mpr (Or.inl h))
  have hL1nil : (L1.flatMap (fun j => (tickNode env j (s.clock.now wall)
        (s.clock.now wall) (getN s j)).2.2)).filter
      (settlesChain (getN s i).chain) = [] := by
    rw [List.filter_eq_nil_iff]
    intro a ha
    obtain ⟨x, hx, hax⟩ := List.mem_flatMap.mp ha
    have hxL : x ∈ L := by rw [hLdec]; exact List.mem_append.mpr (Or.inl hx)
    have hxi : x ≠ i := fun hxe => hiL1 (hxe ▸ hx)
    rcases tickNode_events env x _ _ (getN s x) a hax with ⟨eid, aa, r, hae⟩ | ⟨e', hae⟩
    · subst hae
      simp [settlesChain]
    · subst hae
      have hcne : (getN s x).chain ≠ (getN s i).chain := (hchain x hxL hxi).1
      simp [settlesChain, hcne]
  have hfil1 : ((applyAnimation env i (latchStart (s.clock.now wall) (getN s i))
        (rawProgressOf (s.clock.now wall) (s.clock.now wall) (getN s i))).1).filter
      (settlesChain (getN s i).chain) = [] := by
    rw [List.filter_eq_nil_iff]
    intro a ha
    obtain ⟨eid, x, r, hae⟩ := applyAnimation_events env i _ _ a ha
    subst hae
    simp [settlesChain]
  have hfif : ((tickNode env i (s.clock.now wall) (s.clock.now wall)
        (getN s i)).2.2).filter (settlesChain (getN s i).chain) =
      [Ev.rejectChain (getN s i).chain e] := by
    rw [hthrow]
    dsimp only
    rw [List.filter_append, hfil1, List.nil_append]
    simp [settlesChain]
  have hkfacts : ∀ k, (getN s i).sub = some k → k ∉ L := by
    intro k hk
    exact (hsub i hiL k hk).2.1
  refine ⟨?_, ?_, ?_, ?_, ?_, ?_⟩
  · -- (1) error flag set on the erring node
    rw [hpoll]
    simp only [hcr]
    rw [getN_isPolling_ite]
    rw [(completeNodes_preserves _ _ i).1, hpi]
  · -- (2) the rejection is emitted
    rw [hpoll]
    simp only [hcr]
    apply List.mem_append_left
    rw [hev]
    refine List.mem_flatMap.mpr ⟨i, hiL, ?_⟩
    show Ev.rejectChain (getN s i).chain e ∈
      (tickNode env i (s.clock.now wall) (s.clock.now wall) (getN s i)).2.2
    rw [hthrow]
    exact List.mem_append_right _ (List.mem_singleton.mpr rfl)
  · -- (3) it is the chain's first settling event
    rw [hpoll]
    simp only [hcr]
    rw [hev, hLdec]
    simp only [List.flatMap_append, List.flatMap_cons]
    rw [List.filter_append, List.filter_append, List.filter_append,
      hL1nil, hfif]
    rfl
  · -- (4) the phase is retired from the active-slot list
    rw [hpoll]
    simp only [hcr]
    rw [activeIds_isPolling_ite, hAIcr]
    exact hiM'
  · -- (5) the successor is not promoted and its animator never runs
    intro k hk
    constructor
    · rw [hpoll]
      simp only [hcr]
      rw [activeIds_isPolling_ite, hAIcr]
      exact hsubM' k (by rw [hsubpr i hiL]; exact hk)
    · intro ev hev'
      rw [hpoll] at hev'
      simp only [hcr] at hev'
      have hkL : k ∉ L := hkfacts k hk
      rcases List.mem_append.mp hev' with h1 | h1
      · rw [hev] at h1
        obtain ⟨x, hx, hax⟩ := List.mem_flatMap.mp h1
        have hxk : x ≠ k := fun hxe => hkL (hxe ▸ hx)
        rcases tickNode_events env x _ _ (getN s x) ev hax with
          ⟨eid, aa, r, hae⟩ | ⟨e', hae⟩
        · subst hae
          simp [isEffectCallOf, hxk]
        · subst hae
          rfl
      · obtain ⟨ch, hae⟩ := completeNodes_events _ _ ev h1
        subst hae
        rfl
  · -- (6) no node of the chain remains in the list
    intro x hx
    rw [hpoll] at hx ⊢
    simp only [hcr] at hx ⊢
    rw [activeIds_isPolling_ite, hAIcr] at hx
    rw [getN_isPolling_ite, (completeNodes_preserves _ _ x).2.2.2.1, hchainpr x]
    rcases hmemM' x hx with hxL | ⟨c, hc, hcx⟩
    · have hxi : x ≠ i := fun hxe => hiM' (hxe ▸ hx)
      exact (hchain x hxL hxi).1
    · have hcL : c ∈ L := hcsL c hc
      rw [hsubpr c hcL] at hcx
      have hci : c ≠ i := by
        intro hce
        subst hce
        exact hsubM' x (by rw [hsubpr c hcL]; exact hcx) hx
      exact (hchain c hcL hci).2 x hcx

unseal Rat.add Rat.sub Rat.mul Rat.inv in
/-- Witness for the throw-handling theorem: on the freshly enqueued chain,
phase 1's animator throws `7` at the first sweep; the sweep marks node 0
errored, rejects chain 0 with 7, and leaves node 0 out of the active-slot
list. -/
theorem C6_throw_witness :
    (getN (poll envA 0 c6s.1).1 0).error = true ∧
    Ev.rejectChain (getN c6s.1 0).chain 7 ∈ (poll envA 0 c6s.1).2.2 ∧
    0 ∉ activeIds (poll envA 0 c6s.1).1 := by
  have h := C6_throw_rejects_and_retires envA 0 c6s.1 [0] 0 7
    (by decide) (by decide) (by decide) (by decide) (by decide) (by decide)
    (by decide) (by decide)
  exact ⟨h.1, h.2.1, h.2.2.2.1⟩

/-! ## C7 -/

unseal Rat.add Rat.sub Rat.mul Rat.inv in
/-- C7: `revoke()`.  (1) Every node of the handle's static chain ends the
call with its completed bit set; (2) every event the call emits is an
`_onCompleted` resolution — revocation never rejects; (3) the resolution
of every live chain node carrying the completion callback (the terminal
phase, in an `enqueue`-built chain) does fire; (4) when the handle is a
live occupant of the active-slot list and its descendants are fresh
(never linked — which is how `enqueue` leaves them), no chain node is in
the active-slot list after the call; (5) concretely, revoking an
unstarted two-phase chain resolves its promise (exactly one settling
event, a resolution), never invokes the second phase's animator in the
revocation or any later frame, marks both nodes completed, and leaves the
active-slot list empty. -/
theorem C7_revoke_completes_and_resolves (s : Sched) (i : ℕ)
    (hbC : ∀ x ∈ staticChain s i (s.arena.length + 1), x < s.arena.length)
    (hndC : (staticChain s i (s.arena.length + 1)).Nodup) :
    (∀ x ∈ staticChain s i (s.arena.length + 1),
      (getN (revokeNode s i).1 x).completed = true) ∧
    (∀ ev ∈ (revokeNode s i).2, ∃ ch, ev = Ev.resolveChain ch) ∧
    (∀ t ∈ staticChain s i (s.arena.length + 1),
      (getN s t).completed = false → (getN s t).hasOnCompleted = true →
      Ev.resolveChain (getN s t).chain ∈ (revokeNode s i).2) ∧
    (∀ A B, wfS s (A ++ i :: B) → (getN s i).completed = false →
      (∀ x ∈ staticChain s i (s.arena.length + 1), x ≠ i →
        (getN s x).prev = none ∧ (getN s x).next = none ∧ x ∉ A ++ i :: B) →
      ∀ x ∈ staticChain s i (s.arena.length + 1),
        x ∉ activeIds (revokeNode s i).1) ∧
    (Ev.resolveChain 0 ∈ c7rev.2 ∧
      (c7rev.2 ++ c7post.2).filter (settlesChain 0) = [Ev.resolveChain 0] ∧
      (c7rev.2 ++ c7post.2).filter (isEffectCallOf 1) = [] ∧
      (getN c7rev.1 0).completed = true ∧
      (getN c7rev.1 1).completed = true ∧
      activeIds c7rev.1 = []) := by
  have hstate : (revokeNode s i).1 =
      (revokeGo (revStep s i).1 ((getN (revStep s i).1 i).sub)
        (revStep s i).1.arena.length).1 := by
    rw [revokeNode_eq]
  have hevts : (revokeNode s i).2 =
      (revStep s i).2 ++
      (revokeGo (revStep s i).1 ((getN (revStep s i).1 i).sub)
        (revStep s i).1.arena.length).2 := by
    rw [revokeNode_eq]
  obtain ⟨hg, hlen, hic, hevsS, hfireS⟩ := revStep_facts s i
  have hi0 : i < s.arena.length :=
    hbC i (by rw [staticChain_succ]; exact List.mem_cons_self _ _)
  refine ⟨?_, ?_, ?_, ?_, ?_⟩
  · -- (1) the whole static chain is marked completed
    intro x hx
    rw [hstate, hlen]
    rw [staticChain_succ] at hx
    rcases List.mem_cons.mp hx with hxi | hxt
    · rw [hxi]
      exact ((revokeGo_preserves s.arena.length (revStep s i).1
        ((getN (revStep s i).1 i).sub)).1 i).2.2.2 (hic hi0)
    · cases hsubi : (getN s i).sub with
      | none => rw [hsubi] at hxt; exact absurd hxt (List.not_mem_nil x)
      | some k =>
        rw [hsubi] at hxt
        have hsubr : (getN (revStep s i).1 i).sub = some k := by
          rw [(hg i).1, hsubi]
        rw [hsubr]
        have hchain_eq : staticChain (revStep s i).1 k s.arena.length =
            staticChain s k s.arena.length :=
          staticChain_congr s (revStep s i).1 (fun y => (hg y).1) _ k
        exact revokeGo_marks s.arena.length (revStep s i).1 k
          (by
            rw [hchain_eq, hlen]
            intro y hy
            exact hbC y (by
              rw [staticChain_succ, hsubi]
              exact List.mem_cons_of_mem _ hy))
          x (by rw [hchain_eq]; exact hxt)
  · -- (2) only resolutions are emitted
    intro ev hev
    rw [hevts] at hev
    rcases List.mem_append.mp hev with h | h
    · exact hevsS ev h
    · exact (revokeGo_preserves _ _ _).2.2 ev h
  · -- (3) the live callback-carrying node's resolution fires
    intro t ht hcm hoc
    rw [hevts]
    rw [staticChain_succ] at ht
    rcases List.mem_cons.mp ht with hti | htt
    · rw [hti] at hcm hoc ⊢
      exact List.mem_append_left _ (hfireS hcm hoc hi0)
    · cases hsubi : (getN s i).sub with
      | none => rw [hsubi] at htt; exact absurd htt (List.not_mem_nil t)
      | some k =>
        have hnd' := hndC
        rw [staticChain_succ, hsubi] at hnd'
        rw [hsubi] at htt
        have hti : t ≠ i := fun h => (List.nodup_cons.mp hnd').1 (h ▸ htt)
        have hsubr : (getN (revStep s i).1 i).sub = some k := by
          rw [(hg i).1, hsubi]
        rw [hsubr]
        have hchain_eq : staticChain (revStep s i).1 k s.arena.length =
            staticChain s k s.arena.length :=
          staticChain_congr s (revStep s i).1 (fun y => (hg y).1) _ k
        have hct : (getN (revStep s i).1 t).completed = false := by
          rw [(hg t).2.2.2.1 hti]
          exact hcm
        have hoct : (getN (revStep s i).1 t).hasOnCompleted = true := by
          rw [(hg t).2.1]
          exact hoc
        have hres := revokeGo_fires ((revStep s i).1.arena.length)
          (revStep s i).1 k t
          (by
            rw [hlen, hchain_eq]
            intro y hy
            exact hbC y (by
              rw [staticChain_succ, hsubi]
              exact List.mem_cons_of_mem _ hy))
          (by rw [hlen, hchain_eq]; exact (List.nodup_cons.mp hnd').2)
          (by rw [hlen, hchain_eq]; exact htt) hct hoct
        rw [(hg t).2.2.1] at hres
        exact List.mem_append_right _ hres
  · -- (4) no chain node remains in the active-slot list
    intro A B hwf hci hfresh x hx
    have hwf1 : wfS (setN s i { getN s i with completed := true })
        (A ++ i :: B) := by
      refine wfS_of_links s _ _ hwf rfl rfl (by simp) ?_
      intro y _
      rw [getN_setN_cases]
      by_cases hcy : i = y ∧ y < s.arena.length
      · rw [if_pos hcy]
        obtain ⟨h1, _⟩ := hcy
        subst h1
        exact ⟨rfl, rfl⟩
      · rw [if_neg hcy]
        exact ⟨rfl, rfl⟩
    have hcond : (!(getN s i).completed) = true := by rw [hci]; rfl
    have hrs : (revStep s i).1 =
        (removeNode (setN s i { getN s i with completed := true }) i).1 := by
      unfold revStep
      rw [if_pos hcond]
    have hwfr : wfS (revStep s i).1 (A ++ B) := by
      rw [hrs]
      exact wf_remove _ i A B hwf1
    have hprevi := dll_prev s i B A none s.head hwf.1
    have hnexti := dll_next s i B A none s.head hwf.1
    have hfreshlinks : ∀ y, y ∉ A ++ i :: B →
        (getN s i).prev ≠ some y ∧ (getN s i).next ≠ some y := by
      intro y hy
      constructor
      · intro hcon
        rw [hprevi] at hcon
        cases hA : A.getLast? with
        | none =>
          rw [hA] at hcon
          exact Option.noConfusion (show (none : Option ℕ) = some y from hcon)
        | some p =>
          rw [hA] at hcon
          have hpy : p = y := Option.some.inj (show some p = some y from hcon)
          subst hpy
          exact hy (List.mem_append.mpr
            (Or.inl (List.mem_of_getLast?_eq_some hA)))
      · intro hcon
        rw [hnexti] at hcon
        cases hB : B with
        | nil =>
          rw [hB] at hcon
          exact Option.noConfusion (show (none : Option ℕ) = some y from hcon)
        | cons b bs =>
          rw [hB] at hcon
          have hby : b = y := Option.some.inj (show some b = some y from hcon)
          subst hby
          exact hy (by
            rw [hB]
            exact List.mem_append.mpr
              (Or.inr (List.mem_cons_of_mem _ (List.mem_cons_self _ _))))
    have hfreshget : ∀ y, y ≠ i → y ∉ A ++ i :: B →
        getN (revStep s i).1 y = getN s y := by
      intro y hyi hyL
      rw [hrs]
      have hp1 : (getN (setN s i { getN s i with completed := true }) i).prev =
          (getN s i).prev := by
        rw [getN_setN_cases]
        by_cases hc : i = i ∧ i < s.arena.length
        · rw [if_pos hc]
        · rw [if_neg hc]
      have hn1 : (getN (setN s i { getN s i with completed := true }) i).next =
          (getN s i).next := by
        rw [getN_setN_cases]
        by_cases hc : i = i ∧ i < s.arena.length
        · rw [if_pos hc]
        · rw [if_neg hc]
      rw [removeNode_links_other _ i y
        (by rw [hp1]; exact (hfreshlinks y hyL).1)
        (by rw [hn1]; exact (hfreshlinks y hyL).2)]
      exact getN_setN_ne _ _ _ _ (fun h => hyi h.symm)
    cases hsubi : (getN s i).sub with
    | none =>
      have hsubr : (getN (revStep s i).1 i).sub = none := by
        rw [(hg i).1, hsubi]
      have hfin : (revokeNode s i).1 = (revStep s i).1 := by
        rw [revokeNode_eq]
        dsimp only
        rw [hsubr, revokeGo_none]
      rw [hfin, wfS_activeIds _ _ hwfr]
      rw [staticChain_succ, hsubi] at hx
      rcases List.mem_cons.mp hx with hxi | hxt
      · rw [hxi]
        have hmid := List.nodup_middle.mp hwf.2.2.1
        exact (List.nodup_cons.mp hmid).1
      · exact absurd hxt (List.not_mem_nil x)
    | some k =>
      have hsubr : (getN (revStep s i).1 i).sub = some k := by
        rw [(hg i).1, hsubi]
      have hchain_eq : staticChain (revStep s i).1 k s.arena.length =
          staticChain s k s.arena.length :=
        staticChain_congr s (revStep s i).1 (fun y => (hg y).1) _ k
      have htailmem : ∀ z ∈ staticChain s k s.arena.length,
          z ∈ staticChain s i (s.arena.length + 1) ∧ z ≠ i := by
        intro z hz
        constructor
        · rw [staticChain_succ, hsubi]
          exact List.mem_cons_of_mem _ hz
        · intro hzi
          have hnd' := hndC
          rw [staticChain_succ, hsubi] at hnd'
          exact (List.nodup_cons.mp hnd').1 (hzi ▸ hz)
      obtain ⟨hwg, hwhead, hwtail⟩ := revokeGo_walk_links
        ((revStep s i).1.arena.length) (revStep s i).1 k
        (by
          rw [hlen, hchain_eq]
          intro z hz
          obtain ⟨hzc, hzi⟩ := htailmem z hz
          obtain ⟨hzp, hzn, hzL⟩ := hfresh z hzc hzi
          have hzget : getN (revStep s i).1 z = getN s z := hfreshget z hzi hzL
          refine ⟨by rw [hzget]; exact hzp, by rw [hzget]; exact hzn, ?_⟩
          intro htz
          rw [hwfr.2.1] at htz
          have hzAB : z ∈ A ++ B := List.mem_of_getLast?_eq_some htz
          refine hzL ?_
          rcases List.mem_append.mp hzAB with h | h
          · exact List.mem_append.mpr (Or.inl h)
          · exact List.mem_append.mpr (Or.inr (List.mem_cons_of_mem _ h)))
      have hfin1 : (revokeNode s i).1 =
          (revokeGo (revStep s i).1 (some k)
            ((revStep s i).1.arena.length)).1 := by
        rw [revokeNode_eq]
        dsimp only
        rw [hsubr]
      rw [hfin1]
      have hxcases := hx
      rw [staticChain_succ, hsubi] at hxcases
      rcases hwhead with hw | hw
      · have hwfin : wfS (revokeGo (revStep s i).1 (some k)
            ((revStep s i).1.arena.length)).1 (A ++ B) := by
          refine wfS_of_links (revStep s i).1 _ (A ++ B) hwfr hw hwtail
            ((revokeGo_preserves _ _ _).2.1) ?_
          intro y _
          exact hwg y
        rw [wfS_activeIds _ _ hwfin]
        rcases List.mem_cons.mp hxcases with hxi | hxt
        · rw [hxi]
          have hmid := List.nodup_middle.mp hwf.2.2.1
          exact (List.nodup_cons.mp hmid).1
        · obtain ⟨hxc, hxi'⟩ := htailmem x hxt
          obtain ⟨_, _, hxL⟩ := hfresh x hxc hxi'
          intro hxAB
          refine hxL ?_
          rcases List.mem_append.mp hxAB with h | h
          · exact List.mem_append.mpr (Or.inl h)
          · exact List.mem_append.mpr (Or.inr (List.mem_cons_of_mem _ h))
      · have hAIe : activeIds (revokeGo (revStep s i).1 (some k)
            ((revStep s i).1.arena.length)).1 = [] := by
          unfold activeIds
          rw [hw]
          rfl
        rw [hAIe]
        exact List.not_mem_nil x
  · -- (5) the concrete unstarted two-phase chain
    decide

unseal Rat.add Rat.sub Rat.mul Rat.inv in
/-- Witness for the revoke theorem on the concrete chain: both phases end
completed and the terminal phase's resolution fires. -/
theorem C7_revoke_witness :
    (getN (revokeNode c7s.1 0).1 0).completed = true ∧
    (getN (revokeNode c7s.1 0).1 1).completed = true ∧
    Ev.resolveChain (getN c7s.1 1).chain ∈ (revokeNode c7s.1 0).2 := by
  have h := C7_revoke_completes_and_resolves c7s.1 0 (by decide) (by decide)
  exact ⟨h.1 0 (by decide), h.1 1 (by decide),
    h.2.2.1 1 (by decide) (by decide) (by decide)⟩

end Newcarx
